import Mathlib

/-!
# Atomic primitives, lock-free counter and spinlock of `WEEK1/riscv_code`

A shallow embedding of `task14_atomic_demo.c`, `task15_mutex_demo.c` and
`task14_non_atomic.c`.

The C functions are thin wrappers around RISC-V "A"-extension instructions
(`lr.w`, `sc.w`, `amoadd.w`, `amoswap.w`, `amoand.w`, `amoor.w`) and plain
stores (`sw`).  Their effect is given on a `Machine`: a word-addressed memory
of 32-bit words together with, for every hart, the address on which it holds a
valid reservation (if any).

* `uint32_t` / `int` objects are 32-bit words, kept as naturals below `2 ^ 32`;
  every write reduces modulo `2 ^ 32`.
* A write to an address (plain store, AMO, successful `sc.w`) cancels every
  reservation on that address.  `lr.w` registers a reservation for the
  executing hart; `sc.w` succeeds (result `0`) exactly when the executing hart
  still holds a reservation on the address, and fails with result `1`
  otherwise; either way the executing hart's reservation is consumed.
* The unbounded busy-wait loops take a fuel argument bounding the number of
  loop passes, and report through `Outcome` whether the loop is still
  spinning or has returned.
* What other harts do while a function runs is an explicit schedule of
  `Ev` events, consumed one list per memory instruction of the function.
-/

namespace RiscvAtomics

/-! ## Machine state -/

/-- Number of values of a 32-bit word. -/
def WORD : Nat := 2 ^ 32

/-- Shared memory and the per-hart reservation register. -/
structure Machine where
  /-- Word stored at every address. -/
  mem : Nat → Nat
  /-- Address on which the given hart holds a valid reservation. -/
  resv : Nat → Option Nat

/-- A store of a 32-bit word: updates the addressed word and cancels every
reservation registered on that address. -/
def Machine.write (m : Machine) (addr value : Nat) : Machine :=
  { mem := Function.update m.mem addr (value % WORD)
    resv := fun h => if m.resv h = some addr then none else m.resv h }

/-- The reservation of hart `h` is dropped. -/
def Machine.drop (m : Machine) (h : Nat) : Machine :=
  { m with resv := Function.update m.resv h none }

/-- Something that can happen to the machine between two instructions of the
hart under study: another party writes a word, or the reservation of a hart is
lost without a write (trap, eviction of the reservation set). -/
inductive Ev where
  | write (addr value : Nat)
  | lose (hart : Nat)
  deriving DecidableEq, Repr

/-- Effect of one event. -/
def Ev.apply : Ev → Machine → Machine
  | Ev.write addr value, m => m.write addr value
  | Ev.lose hart, m => m.drop hart

/-- Effect of a list of events, in order. -/
def interfere (evs : List Ev) (m : Machine) : Machine :=
  evs.foldl (fun s e => e.apply s) m

/-- Does the event cancel a reservation of hart `h` on `addr`? -/
def Ev.kills (h addr : Nat) : Ev → Bool
  | Ev.write a _ => decide (a = addr)
  | Ev.lose i => decide (i = h)

/-- Does the event write to `addr`? -/
def Ev.writesTo (addr : Nat) : Ev → Bool
  | Ev.write a _ => decide (a = addr)
  | Ev.lose _ => false

/-! ## `task14_atomic_demo.c`: the primitives -/

/-- Instruction `lr.w`: returns the addressed word and registers a reservation on it for
the executing hart `h`. -/
def atomic_load_reserved (h addr : Nat) (m : Machine) : Nat × Machine :=
  (m.mem addr, { m with resv := Function.update m.resv h (some addr) })

/-- Instruction `sc.w`: result `0` and the word written when hart `h` holds a reservation
on `addr`, result `1` and no write otherwise. -/
def atomic_store_conditional (h addr value : Nat) (m : Machine) : Nat × Machine :=
  if m.resv h = some addr then (0, (m.write addr value).drop h)
  else (1, m.drop h)

/-- Instruction `amoadd.w`: returns the old word, stores old + value. -/
def atomic_add (addr value : Nat) (m : Machine) : Nat × Machine :=
  (m.mem addr, m.write addr (m.mem addr + value))

/-- Instruction `amoswap.w`: returns the old word, stores value. -/
def atomic_swap (addr value : Nat) (m : Machine) : Nat × Machine :=
  (m.mem addr, m.write addr value)

/-- Instruction `amoand.w`: returns the old word, stores old AND value. -/
def atomic_and (addr value : Nat) (m : Machine) : Nat × Machine :=
  (m.mem addr, m.write addr (m.mem addr &&& value))

/-- Instruction `amoor.w`: returns the old word, stores old OR value. -/
def atomic_or (addr value : Nat) (m : Machine) : Nat × Machine :=
  (m.mem addr, m.write addr (m.mem addr ||| value))

/-- State of a busy-wait loop after a bounded number of passes: either it is
still spinning, or it has returned.  `seen` is the word the last `lr.w` /
`amoswap.w` of the loop read, `passes` the number of loop passes executed. -/
inductive Outcome where
  | spinning (m : Machine)
  | returned (m : Machine) (seen passes : Nat)

/-- Machine state the loop has reached. -/
def Outcome.machine : Outcome → Machine
  | Outcome.spinning m => m
  | Outcome.returned m _ _ => m

/-- Has the loop returned? -/
def Outcome.done : Outcome → Bool
  | Outcome.spinning _ => false
  | Outcome.returned _ _ _ => true

/-- Number of passes of a loop that has returned (`0` while spinning). -/
def Outcome.passes : Outcome → Nat
  | Outcome.spinning _ => 0
  | Outcome.returned _ _ p => p

/-- Accounts for one more loop pass in front of the given outcome. -/
def Outcome.again : Outcome → Outcome
  | Outcome.spinning m => Outcome.spinning m
  | Outcome.returned m seen p => Outcome.returned m seen (p + 1)

/-- Function `atomic_increment_lr_sc(counter)` run by hart `h`:
`do { old_value = lr(counter); result = sc(counter, old_value + 1); } while (result != 0);`.
Every pass takes from the schedule the events occurring before its `lr.w` and
those occurring between its `lr.w` and its `sc.w`. -/
def atomic_increment_lr_sc (h counter : Nat) :
    Nat → List (List Ev × List Ev) → Machine → Outcome
  | 0, _, m => Outcome.spinning m
  | fuel + 1, env, m =>
    let gap := env.headD ([], [])
    let lr := atomic_load_reserved h counter (interfere gap.1 m)
    let old_value := lr.1
    let sc := atomic_store_conditional h counter ((old_value + 1) % WORD) (interfere gap.2 lr.2)
    if sc.1 ≠ 0 then (atomic_increment_lr_sc h counter fuel env.tail sc.2).again
    else Outcome.returned sc.2 old_value 1

/-- Function `acquire_lock(lock)`: `while (atomic_swap(lock, 1) != 0) {}`.  Every pass
takes from the schedule the events occurring before its `amoswap.w`. -/
def acquire_lock (lock : Nat) : Nat → List (List Ev) → Machine → Outcome
  | 0, _, m => Outcome.spinning m
  | fuel + 1, env, m =>
    let old := atomic_swap lock 1 (interfere (env.headD []) m)
    if old.1 ≠ 0 then (acquire_lock lock fuel env.tail old.2).again
    else Outcome.returned old.2 old.1 1

/-- Function `release_lock(lock)`: `atomic_swap(lock, 0)`, result discarded. -/
def release_lock (lock : Nat) (m : Machine) : Machine :=
  (atomic_swap lock 0 m).2

/-! ## `task15_mutex_demo.c` -/

/-- Function `spinlock_acquire(lock)` run by hart `h`:
`1: lr.w tmp,(lock); bnez tmp,1b; li tmp,1; sc.w tmp,tmp,(lock); bnez tmp,1b`.
Every pass from label `1` takes from the schedule the events occurring before
its `lr.w` and, when the pass gets to the `sc.w`, those occurring between the
two instructions. -/
def spinlock_acquire (h lock : Nat) :
    Nat → List (List Ev × List Ev) → Machine → Outcome
  | 0, _, m => Outcome.spinning m
  | fuel + 1, env, m =>
    let gap := env.headD ([], [])
    let lr := atomic_load_reserved h lock (interfere gap.1 m)
    if lr.1 ≠ 0 then (spinlock_acquire h lock fuel env.tail lr.2).again
    else
      let sc := atomic_store_conditional h lock 1 (interfere gap.2 lr.2)
      if sc.1 ≠ 0 then (spinlock_acquire h lock fuel env.tail sc.2).again
      else Outcome.returned sc.2 lr.1 1

/-- Function `spinlock_release(lock)`: `sw zero, 0(lock)`. -/
def spinlock_release (lock : Nat) (m : Machine) : Machine :=
  m.write lock 0

/-- Addresses of the four globals of `task15_mutex_demo.c`. -/
structure Globals where
  spinlock : Nat
  shared_counter : Nat
  thread1_iterations : Nat
  thread2_iterations : Nat

/-- The four globals are different objects. -/
def Globals.Distinct (g : Globals) : Prop :=
  g.spinlock ≠ g.shared_counter ∧ g.spinlock ≠ g.thread1_iterations ∧
  g.spinlock ≠ g.thread2_iterations ∧ g.shared_counter ≠ g.thread1_iterations ∧
  g.shared_counter ≠ g.thread2_iterations ∧ g.thread1_iterations ≠ g.thread2_iterations

instance (g : Globals) : Decidable g.Distinct := by
  unfold Globals.Distinct
  infer_instance

/-- Value of a 32-bit word read as a two's-complement `int`. -/
def toInt32 (w : Nat) : Int :=
  if w < 2 ^ 31 then (w : Int) else (w : Int) - 2 ^ 32

/-- Body of the `for` loop of `increment_shared_counter`, run by hart `h` in a
single context (nothing else touches the machine): acquire, increment
`shared_counter` through `temp`, bump the per-thread counter, release.
`none` when the acquire is still spinning after `fuel` passes. -/
def critical_section (g : Globals) (h fuel : Nat) (thread_id : Int) (m : Machine) :
    Option Machine :=
  match spinlock_acquire h g.spinlock fuel [] m with
  | Outcome.spinning _ => none
  | Outcome.returned m1 _ _ =>
    let temp := m1.mem g.shared_counter
    let temp := (temp + 1) % WORD
    let m2 := m1.write g.shared_counter temp
    let m3 :=
      if thread_id = 1 then
        m2.write g.thread1_iterations ((m2.mem g.thread1_iterations + 1) % WORD)
      else
        m2.write g.thread2_iterations ((m2.mem g.thread2_iterations + 1) % WORD)
    some (spinlock_release g.spinlock m3)

/-- The loop `for (i = 0; i < iterations; i++)` with `n` passes left; the
second component counts the critical sections entered. -/
def increment_loop (g : Globals) (h fuel : Nat) (thread_id : Int) :
    Nat → Machine → Option (Machine × Nat)
  | 0, m => some (m, 0)
  | n + 1, m =>
    match critical_section g h fuel thread_id m with
    | none => none
    | some m1 =>
      match increment_loop g h fuel thread_id n m1 with
      | none => none
      | some r => some (r.1, r.2 + 1)

/-- Function `increment_shared_counter(thread_id, iterations)`: the loop body runs for
`i = 0, ..., iterations - 1`, that is `iterations` times, and not at all for
`iterations <= 0`. -/
def increment_shared_counter (g : Globals) (h fuel : Nat) (thread_id iterations : Int)
    (m : Machine) : Option (Machine × Nat) :=
  increment_loop g h fuel thread_id iterations.toNat m

/-- Function `thread1_function()`. -/
def thread1_function (g : Globals) (h fuel : Nat) (m : Machine) : Option (Machine × Nat) :=
  increment_shared_counter g h fuel 1 50000 m

/-- Function `thread2_function()`. -/
def thread2_function (g : Globals) (h fuel : Nat) (m : Machine) : Option (Machine × Nat) :=
  increment_shared_counter g h fuel 2 50000 m

/-- Function `delay(count)`: counts a local down, touching no shared state. -/
def delay (_count : Int) (m : Machine) : Machine := m

/-- Function `main()` of `task15_mutex_demo.c`, run by hart `h`. -/
def MutexDemo.main (g : Globals) (h fuel : Nat) (m : Machine) : Option Machine :=
  let m := m.write g.spinlock 0
  let m := m.write g.shared_counter 0
  let m := m.write g.thread1_iterations 0
  let m := m.write g.thread2_iterations 0
  match thread1_function g h fuel m with
  | none => none
  | some r1 =>
    let m := delay 1000 r1.1
    match thread2_function g h fuel m with
    | none => none
    | some r2 => some r2.1

/-! ## Interleaved execution -/

/-- One scheduling decision: hart `i` executes its next memory instruction, or
hart `i` loses its reservation without anybody writing. -/
inductive Act where
  | run (i : Nat)
  | lose (i : Nat)
  deriving DecidableEq, Repr

/-- A context that still has `todo` calls of `atomic_increment_lr_sc` to
complete.  `old_value = some v` when the current call has executed its `lr.w`
(reading `v`) and is about to execute the `sc.w`. -/
structure IncThread where
  todo : Nat
  old_value : Option Nat

/-- Contexts incrementing one shared counter. -/
structure IncSys where
  m : Machine
  thr : Nat → IncThread

/-- One scheduling decision on the contexts incrementing `counter`. -/
def IncSys.step (counter : Nat) (s : IncSys) : Act → IncSys
  | Act.lose i => { s with m := s.m.drop i }
  | Act.run i =>
    if (s.thr i).todo = 0 then s
    else
      match (s.thr i).old_value with
      | none =>
        let lr := atomic_load_reserved i counter s.m
        { m := lr.2
          thr := Function.update s.thr i { todo := (s.thr i).todo, old_value := some lr.1 } }
      | some old_value =>
        let sc := atomic_store_conditional i counter ((old_value + 1) % WORD) s.m
        if sc.1 ≠ 0 then
          { m := sc.2
            thr := Function.update s.thr i { todo := (s.thr i).todo, old_value := none } }
        else
          { m := sc.2
            thr := Function.update s.thr i { todo := (s.thr i).todo - 1, old_value := none } }

/-- Runs a whole schedule. -/
def IncSys.exec (counter : Nat) (s : IncSys) (sched : List Act) : IncSys :=
  sched.foldl (IncSys.step counter) s

/-- Contexts `0 .. N - 1` are each about to call the increment `K` times. -/
def IncSys.init (m : Machine) (N K : Nat) : IncSys :=
  { m := m
    thr := fun i => { todo := if i < N then K else 0, old_value := none } }

/-- Have contexts `0 .. N - 1` completed all their calls? -/
def IncSys.finished (s : IncSys) (N : Nat) : Prop :=
  ∀ i, i < N → (s.thr i).todo = 0

instance (s : IncSys) (N : Nat) : Decidable (s.finished N) := by
  unfold IncSys.finished
  infer_instance

/-- Which acquire/release pair a context uses: `spinlock_acquire` /
`spinlock_release`, or `acquire_lock` / `release_lock`. -/
inductive LockImpl where
  | lrsc
  | swap
  deriving DecidableEq, Repr

/-- Where a context stands in `acquire; critical section; release`:
`entry` is the head of the acquire loop, `sc` is after an `lr.w` that read
zero, `crit` is after the acquire has returned, `rel` is at the release. -/
inductive Pc where
  | entry
  | sc
  | crit
  | rel
  deriving DecidableEq, Repr

/-- Contexts contending for one lock. -/
structure LockSys where
  m : Machine
  pc : Nat → Pc

/-- One scheduling decision on the contexts contending for `lock`.  `cs i` is
one step of the critical section of context `i`: what it does to the machine,
and whether the critical section is over after it. -/
def LockSys.step (impl : Nat → LockImpl) (cs : Nat → Machine → Machine × Bool) (lock : Nat)
    (s : LockSys) : Act → LockSys
  | Act.lose i => { s with m := s.m.drop i }
  | Act.run i =>
    match s.pc i, impl i with
    | Pc.entry, LockImpl.lrsc =>
      let lr := atomic_load_reserved i lock s.m
      { m := lr.2, pc := Function.update s.pc i (if lr.1 ≠ 0 then Pc.entry else Pc.sc) }
    | Pc.entry, LockImpl.swap =>
      let old := atomic_swap lock 1 s.m
      { m := old.2, pc := Function.update s.pc i (if old.1 ≠ 0 then Pc.entry else Pc.crit) }
    | Pc.sc, _ =>
      let sc := atomic_store_conditional i lock 1 s.m
      { m := sc.2, pc := Function.update s.pc i (if sc.1 ≠ 0 then Pc.entry else Pc.crit) }
    | Pc.crit, _ =>
      let r := cs i s.m
      { m := r.1, pc := Function.update s.pc i (if r.2 = true then Pc.rel else Pc.crit) }
    | Pc.rel, LockImpl.lrsc =>
      { m := spinlock_release lock s.m, pc := Function.update s.pc i Pc.entry }
    | Pc.rel, LockImpl.swap =>
      { m := release_lock lock s.m, pc := Function.update s.pc i Pc.entry }

/-- Runs a whole schedule. -/
def LockSys.exec (impl : Nat → LockImpl) (cs : Nat → Machine → Machine × Bool) (lock : Nat)
    (s : LockSys) (sched : List Act) : LockSys :=
  sched.foldl (LockSys.step impl cs lock) s

/-- Every context is about to call acquire. -/
def LockSys.init (m : Machine) : LockSys :=
  { m := m, pc := fun _ => Pc.entry }

/-- Context `i` is between a returned acquire and its matching release. -/
def LockSys.holds (s : LockSys) (i : Nat) : Prop :=
  s.pc i = Pc.crit ∨ s.pc i = Pc.rel

instance (s : LockSys) (i : Nat) : Decidable (s.holds i) := by
  unfold LockSys.holds
  infer_instance

/-- The critical section leaves the lock word alone and registers no
reservation on it. -/
def LockFrame (cs : Nat → Machine → Machine × Bool) (lock : Nat) : Prop :=
  ∀ i m, (cs i m).1.mem lock = m.mem lock ∧
    ∀ j, (cs i m).1.resv j = some lock → m.resv j = some lock

/-- All events of a schedule of (before `lr.w`, between `lr.w` and `sc.w`)
pairs, in the order in which they occur. -/
def gapEvents : List (List Ev × List Ev) → List Ev
  | [] => []
  | g :: gs => g.1 ++ (g.2 ++ gapEvents gs)

/-- Calls still to be completed by contexts `0 .. n - 1`. -/
def pending : Nat → (Nat → IncThread) → Nat
  | 0, _ => 0
  | n + 1, thr => pending n thr + (thr n).todo

/-- Invariant of the contexts incrementing the counter at `c`: the counter
plus the calls still to complete is the target (mod `2^32`); the counter is a
32-bit word; a context that is about to execute its `sc.w` and still holds its
reservation has read the current counter; contexts from `N` on do nothing. -/
def IncInv (c N target : Nat) (s : IncSys) : Prop :=
  (s.m.mem c + pending N s.thr) % WORD = target % WORD ∧
  s.m.mem c < WORD ∧
  (∀ i v, (s.thr i).old_value = some v → s.m.resv i = some c → v = s.m.mem c) ∧
  (∀ i, N ≤ i → (s.thr i).todo = 0)

/-- Invariant of the contexts contending for `lock`: at most one context is
between a returned acquire and its release; while one is, the lock word is 1;
a context that is about to execute its `sc.w` and still holds its reservation
has read a lock word that is still 0. -/
def LockInv (lock : Nat) (s : LockSys) : Prop :=
  (∀ i j, s.holds i → s.holds j → i = j) ∧
  (∀ i, s.holds i → s.m.mem lock = 1) ∧
  (∀ i, s.pc i = Pc.sc → s.m.resv i = some lock → s.m.mem lock = 0)

/-- The event does not put anything but 0 or 1 in the word at `lock`. -/
def Ev.binaryOn (lock : Nat) : Ev → Bool
  | Ev.write a v => decide (a ≠ lock) || decide (v % WORD ≤ 1)
  | Ev.lose _ => true

/-- Schedule for `spinlock_acquire` in which the events of each pass all
occur before its `lr.w`, none between the `lr.w` and the `sc.w`. -/
def quietGaps (env : List (List Ev)) : List (List Ev × List Ev) :=
  env.map (fun evs => (evs, []))

/-- Schedule in which context `i` runs `k` calls of the increment alone:
`lr.w` then `sc.w`, `k` times. -/
def callsBy (i : Nat) : Nat → List Act
  | 0 => []
  | k + 1 => Act.run i :: Act.run i :: callsBy i k

/-- Schedule in which contexts `0 .. n - 1` run their `K` calls one context
after the other. -/
def seqSchedule : Nat → Nat → List Act
  | 0, _ => []
  | n + 1, K => seqSchedule n K ++ callsBy n K

/-- The equation `shared_counter = thread1_iterations + thread2_iterations`
between the three `int` globals of the mutex demo. -/
def countersAgree (g : Globals) (m : Machine) : Prop :=
  toInt32 (m.mem g.shared_counter)
    = toInt32 (m.mem g.thread1_iterations) + toInt32 (m.mem g.thread2_iterations)

instance (g : Globals) (m : Machine) : Decidable (countersAgree g m) := by
  unfold countersAgree
  infer_instance

/-- The same equation in 32-bit arithmetic: both sides modulo `2 ^ 32`. -/
def countersAgreeMod (g : Globals) (m : Machine) : Prop :=
  m.mem g.shared_counter % WORD
    = (m.mem g.thread1_iterations + m.mem g.thread2_iterations) % WORD

/-- State of the mutex demo after the four initialising stores of `main`. -/
def mutexInit (g : Globals) (m : Machine) : Machine :=
  (((m.write g.spinlock 0).write g.shared_counter 0).write g.thread1_iterations 0).write
    g.thread2_iterations 0

/-! ## `task14_atomic_demo.c`: the demonstration -/

/-- Addresses of the two globals of `task14_atomic_demo.c`. -/
structure AtomicGlobals where
  shared_counter : Nat
  lock_variable : Nat

/-- Function `demonstrate_atomic_operations()`.  The first component lists the
values successively assigned to the local `old_value`. -/
def demonstrate_atomic_operations (g : AtomicGlobals) (m : Machine) : List Nat × Machine :=
  let r1 := atomic_add g.shared_counter 5 m
  let r2 := atomic_swap g.shared_counter 100 r1.2
  let r3 := atomic_and g.shared_counter 0xFF r2.2
  let r4 := atomic_or g.shared_counter 0x80000000 r3.2
  ([r1.1, r2.1, r3.1, r4.1], r4.2)

/-- The loop of `demonstrate_lock_free_increment` with `n` passes left, run by
hart `h` in a single context.  `none` when a call of the increment is still
spinning after `fuel` passes. -/
def lock_free_loop (g : AtomicGlobals) (h fuel : Nat) : Nat → Machine → Option Machine
  | 0, m => some m
  | n + 1, m =>
    match atomic_increment_lr_sc h g.shared_counter fuel [] m with
    | Outcome.spinning _ => none
    | Outcome.returned m1 _ _ => lock_free_loop g h fuel n m1

/-- Function `demonstrate_lock_free_increment()`: `for (i = 0; i < 10; i++)`. -/
def demonstrate_lock_free_increment (g : AtomicGlobals) (h fuel : Nat) (m : Machine) :
    Option Machine :=
  lock_free_loop g h fuel 10 m

/-- Function `demonstrate_spinlock()` in a single context: `acquire_lock`,
`shared_counter += 1`, `release_lock`. -/
def demonstrate_spinlock (g : AtomicGlobals) (fuel : Nat) (m : Machine) : Option Machine :=
  match acquire_lock g.lock_variable fuel [] m with
  | Outcome.spinning _ => none
  | Outcome.returned m1 _ _ =>
    let m2 := m1.write g.shared_counter ((m1.mem g.shared_counter + 1) % WORD)
    some (release_lock g.lock_variable m2)

/-- Function `main()` of `task14_atomic_demo.c`, run by hart `h` in a single
context.  The first component is the list of values taken by `old_value` in
`demonstrate_atomic_operations`. -/
def AtomicDemo.main (g : AtomicGlobals) (h fuel : Nat) (m : Machine) :
    Option (List Nat × Machine) :=
  let m := m.write g.shared_counter 0
  let m := m.write g.lock_variable 0
  let r := demonstrate_atomic_operations g m
  match demonstrate_lock_free_increment g h fuel r.2 with
  | none => none
  | some m1 =>
    match demonstrate_spinlock g fuel m1 with
    | none => none
    | some m2 => some (r.1, m2)

/-! ## `task14_non_atomic.c` -/

/-- Function `non_atomic_increment(counter)` run without interruption:
`temp = *counter; temp = temp + 1; *counter = temp;`. -/
def non_atomic_increment (counter : Nat) (m : Machine) : Machine :=
  let temp := m.mem counter
  let temp := (temp + 1) % WORD
  m.write counter temp

/-- Where a context stands in `non_atomic_increment`: before the read, before
the modify (holding `temp`), before the write (holding `temp`), returned. -/
inductive RacyPc where
  | read
  | modify (temp : Nat)
  | write (temp : Nat)
  | done
  deriving DecidableEq, Repr

/-- Contexts running `non_atomic_increment` on one counter. -/
structure RacySys where
  m : Machine
  pc : Nat → RacyPc

/-- One scheduling decision on the contexts running `non_atomic_increment` on
`counter`: context `i` executes its next statement. -/
def RacySys.step (counter : Nat) (s : RacySys) : Act → RacySys
  | Act.lose i => { s with m := s.m.drop i }
  | Act.run i =>
    match s.pc i with
    | RacyPc.read =>
      { m := s.m, pc := Function.update s.pc i (RacyPc.modify (s.m.mem counter)) }
    | RacyPc.modify temp =>
      { m := s.m, pc := Function.update s.pc i (RacyPc.write ((temp + 1) % WORD)) }
    | RacyPc.write temp =>
      { m := s.m.write counter temp, pc := Function.update s.pc i RacyPc.done }
    | RacyPc.done => s

/-- Runs a whole schedule. -/
def RacySys.exec (counter : Nat) (s : RacySys) (sched : List Act) : RacySys :=
  sched.foldl (RacySys.step counter) s

/-- Contexts `0 .. N - 1` are each about to call `non_atomic_increment`. -/
def RacySys.init (m : Machine) (N : Nat) : RacySys :=
  { m := m, pc := fun i => if i < N then RacyPc.read else RacyPc.done }

/-- Have contexts `0 .. N - 1` returned? -/
def RacySys.finished (s : RacySys) (N : Nat) : Prop :=
  ∀ i, i < N → s.pc i = RacyPc.done

instance (s : RacySys) (N : Nat) : Decidable (s.finished N) := by
  unfold RacySys.finished
  infer_instance

/-- Schedule in which two contexts both read, both modify, then both write. -/
def lostUpdate : List Act :=
  [Act.run 0, Act.run 1, Act.run 0, Act.run 1, Act.run 0, Act.run 1]

/-- Schedule in which context 0 runs its call, then context 1 runs its own. -/
def oneAfterTheOther : List Act :=
  [Act.run 0, Act.run 0, Act.run 0, Act.run 1, Act.run 1, Act.run 1]

/-! ## Sample machines -/

/-- All words zero, no reservation. -/
def Machine.zero : Machine :=
  { mem := fun _ => 0, resv := fun _ => none }

/-- The zero machine with word `v` at address `a`. -/
def Machine.poke (a v : Nat) : Machine :=
  { mem := fun b => if b = a then v else 0, resv := fun _ => none }

/-- Machine whose word at address `a` is the `a`-th element of the list (0
past its end), with no reservation. -/
def Machine.ofList (ws : List Nat) : Machine :=
  { mem := fun a => ws.getD a 0, resv := fun _ => none }

/-! ## Basic facts about the machine -/

@[simp] theorem write_mem_same (m : Machine) (a v : Nat) :
    (m.write a v).mem a = v % WORD := by
  simp [Machine.write]

@[simp] theorem write_mem_other (m : Machine) (a b v : Nat) (hne : b ≠ a) :
    (m.write a v).mem b = m.mem b := by
  simp [Machine.write, Function.update_noteq hne]

@[simp] theorem drop_mem (m : Machine) (h : Nat) : (m.drop h).mem = m.mem := rfl

@[simp] theorem drop_resv_same (m : Machine) (h : Nat) : (m.drop h).resv h = none := by
  simp [Machine.drop]

theorem word_and_lt (v x : Nat) (hv : v < WORD) : v &&& x < WORD := by
  unfold WORD at *
  rw [Nat.land_comm]
  exact Nat.and_lt_two_pow x hv

theorem word_or_lt (v x : Nat) (hv : v < WORD) (hx : x < WORD) : v ||| x < WORD := by
  unfold WORD at *
  exact Nat.or_lt_two_pow hv hx

/-! ## Interference -/

@[simp] theorem interfere_nil (m : Machine) : interfere [] m = m := rfl

@[simp] theorem interfere_cons (e : Ev) (evs : List Ev) (m : Machine) :
    interfere (e :: evs) m = interfere evs (e.apply m) := rfl

theorem interfere_append (a b : List Ev) (m : Machine) :
    interfere (a ++ b) m = interfere b (interfere a m) := by
  simp [interfere, List.foldl_append]

/-- What an event does to memory does not depend on the reservations. -/
theorem apply_mem_congr (e : Ev) (m1 m2 : Machine) (hm : m1.mem = m2.mem) :
    (e.apply m1).mem = (e.apply m2).mem := by
  cases e with
  | write a v => simp [Ev.apply, Machine.write, hm]
  | lose i => simpa [Ev.apply] using hm

theorem interfere_mem_congr (evs : List Ev) (m1 m2 : Machine) (hm : m1.mem = m2.mem) :
    (interfere evs m1).mem = (interfere evs m2).mem := by
  induction evs generalizing m1 m2 with
  | nil => simpa using hm
  | cons e evs ih => simpa using ih _ _ (apply_mem_congr e m1 m2 hm)

/-- Events never register a reservation. -/
theorem apply_resv_mono (e : Ev) (m : Machine) (h a : Nat)
    (hr : (e.apply m).resv h = some a) : m.resv h = some a := by
  cases e with
  | write b v =>
    simp only [Ev.apply, Machine.write] at hr
    split at hr
    · cases hr
    · exact hr
  | lose i =>
    simp only [Ev.apply, Machine.drop] at hr
    by_cases hi : h = i
    · subst hi; simp at hr
    · rwa [Function.update_noteq hi] at hr

theorem interfere_resv_mono (evs : List Ev) (m : Machine) (h a : Nat)
    (hr : (interfere evs m).resv h = some a) : m.resv h = some a := by
  induction evs generalizing m with
  | nil => simpa using hr
  | cons e evs ih => exact apply_resv_mono e m h a (ih _ (by simpa using hr))

/-- An event that kills the reservation of `h` on `a` leaves none behind. -/
theorem apply_kills (e : Ev) (m : Machine) (h a : Nat) (hk : e.kills h a = true) :
    (e.apply m).resv h ≠ some a := by
  cases e with
  | write b v =>
    simp only [Ev.kills, decide_eq_true_eq] at hk
    subst hk
    simp only [Ev.apply, Machine.write]
    split
    · simp
    · assumption
  | lose i =>
    simp only [Ev.kills, decide_eq_true_eq] at hk
    subst hk
    simp [Ev.apply]

/-- An event that does not kill the reservation of `h` on `a` keeps it. -/
theorem apply_keeps (e : Ev) (m : Machine) (h a : Nat) (hk : e.kills h a = false)
    (hr : m.resv h = some a) : (e.apply m).resv h = some a := by
  cases e with
  | write b v =>
    simp only [Ev.kills, decide_eq_false_iff_not] at hk
    have hne : a ≠ b := fun hab => hk hab.symm
    simp [Ev.apply, Machine.write, hr, hne]
  | lose i =>
    simp only [Ev.kills, decide_eq_false_iff_not] at hk
    have hne : h ≠ i := fun hab => hk hab.symm
    simp [Ev.apply, Machine.drop, Function.update_noteq hne, hr]

theorem interfere_resv_killed (evs : List Ev) (m : Machine) (h a : Nat)
    (hk : evs.any (Ev.kills h a) = true) : (interfere evs m).resv h ≠ some a := by
  induction evs generalizing m with
  | nil => simp at hk
  | cons e evs ih =>
    simp only [List.any_cons, Bool.or_eq_true] at hk
    intro hr
    rcases hk with hk | hk
    · exact apply_kills e m h a hk (interfere_resv_mono evs _ h a (by simpa using hr))
    · exact ih _ hk (by simpa using hr)

theorem interfere_resv_kept (evs : List Ev) (m : Machine) (h a : Nat)
    (hk : evs.any (Ev.kills h a) = false) (hr : m.resv h = some a) :
    (interfere evs m).resv h = some a := by
  induction evs generalizing m with
  | nil => simpa using hr
  | cons e evs ih =>
    simp only [List.any_cons, Bool.or_eq_false_iff] at hk
    simpa using ih _ hk.2 (apply_keeps e m h a hk.1 hr)

/-- An event that does not write to `a` leaves the word at `a` alone. -/
theorem apply_mem_kept (e : Ev) (m : Machine) (a : Nat) (hw : e.writesTo a = false) :
    (e.apply m).mem a = m.mem a := by
  cases e with
  | write b v =>
    simp only [Ev.writesTo, decide_eq_false_iff_not] at hw
    have hne : a ≠ b := fun hab => hw hab.symm
    simp [Ev.apply, hne]
  | lose i => simp [Ev.apply]

theorem interfere_mem_kept (evs : List Ev) (m : Machine) (a : Nat)
    (hw : evs.any (Ev.writesTo a) = false) : (interfere evs m).mem a = m.mem a := by
  induction evs generalizing m with
  | nil => simp
  | cons e evs ih =>
    simp only [List.any_cons, Bool.or_eq_false_iff] at hw
    rw [interfere_cons, ih _ hw.2, apply_mem_kept e m a hw.1]

/-- An event that does not kill a reservation on `a` does not write to `a`. -/
theorem writesTo_of_not_kills (evs : List Ev) (h a : Nat)
    (hk : evs.any (Ev.kills h a) = false) : evs.any (Ev.writesTo a) = false := by
  induction evs with
  | nil => rfl
  | cons e evs ih =>
    simp only [List.any_cons, Bool.or_eq_false_iff] at hk ⊢
    refine ⟨?_, ih hk.2⟩
    cases e with
    | write b v => simpa [Ev.kills, Ev.writesTo] using hk.1
    | lose i => rfl

/-! ## The lock-free increment, pass by pass -/

@[simp] theorem again_done (o : Outcome) : o.again.done = o.done := by
  cases o <;> rfl

@[simp] theorem again_machine (o : Outcome) : o.again.machine = o.machine := by
  cases o <;> rfl

theorem gapEvents_append (xs ys : List (List Ev × List Ev)) :
    gapEvents (xs ++ ys) = gapEvents xs ++ gapEvents ys := by
  induction xs with
  | nil => rfl
  | cons g gs ih => simp [gapEvents, ih]

/-- State in which a pass of the increment leaves the machine when its `sc.w`
fails: the events of the pass have happened, hart `h` holds no reservation. -/
theorem incr_pass_fail (h c fuel : Nat) (g : List Ev × List Ev)
    (env : List (List Ev × List Ev)) (m : Machine)
    (hk : g.2.any (Ev.kills h c) = true) :
    atomic_increment_lr_sc h c (fuel + 1) (g :: env) m =
      (atomic_increment_lr_sc h c fuel env
        ((interfere g.2 (atomic_load_reserved h c (interfere g.1 m)).2).drop h)).again := by
  have hr := interfere_resv_killed g.2 (atomic_load_reserved h c (interfere g.1 m)).2 h c hk
  simp only [atomic_increment_lr_sc, List.headD_cons, List.tail_cons,
    atomic_store_conditional, if_neg hr]
  simp

/-- A pass of the increment whose reservation survives returns. -/
theorem incr_pass_ok (h c fuel : Nat) (g : List Ev × List Ev)
    (env : List (List Ev × List Ev)) (m : Machine)
    (hk : g.2.any (Ev.kills h c) = false) :
    atomic_increment_lr_sc h c (fuel + 1) (g :: env) m =
      Outcome.returned
        (((interfere g.2 (atomic_load_reserved h c (interfere g.1 m)).2).write c
          (((interfere g.1 m).mem c + 1) % WORD)).drop h)
        ((interfere g.1 m).mem c) 1 := by
  have hr := interfere_resv_kept g.2 (atomic_load_reserved h c (interfere g.1 m)).2 h c hk
    (by simp [atomic_load_reserved])
  simp only [atomic_increment_lr_sc, List.headD_cons, List.tail_cons,
    atomic_store_conditional, if_pos hr]
  simp [atomic_load_reserved]

theorem load_reserved_mem (h c : Nat) (m : Machine) :
    (atomic_load_reserved h c m).2.mem = m.mem := rfl

/-- Given `k` failing passes followed by a passing one, from any state whose memory
is that of `m0`. -/
theorem incr_rounds (h c : Nat) (ok : List Ev × List Ev)
    (rest : List (List Ev × List Ev)) (extra : Nat)
    (hok : ok.2.any (Ev.kills h c) = false) :
    ∀ (fails : List (List Ev × List Ev)) (m m0 : Machine),
      (∀ g ∈ fails, g.2.any (Ev.kills h c) = true) → m.mem = m0.mem →
      (atomic_increment_lr_sc h c fails.length (fails ++ ok :: rest) m).done = false ∧
      ∃ m', atomic_increment_lr_sc h c (fails.length + 1 + extra) (fails ++ ok :: rest) m =
          Outcome.returned m' ((interfere ok.1 (interfere (gapEvents fails) m0)).mem c)
            (fails.length + 1) ∧
        m'.mem c = ((interfere ok.1 (interfere (gapEvents fails) m0)).mem c + 1) % WORD ∧
        ∀ a, a ≠ c → m'.mem a = (interfere (gapEvents (fails ++ [ok])) m0).mem a := by
  intro fails
  induction fails with
  | nil =>
    intro m m0 _ hm
    refine ⟨rfl, ?_⟩
    have hfuel : 0 + 1 + extra = extra + 1 := by omega
    have hold : (interfere ok.1 m).mem c = (interfere ok.1 m0).mem c := by
      rw [interfere_mem_congr ok.1 m m0 hm]
    simp only [List.length_nil, List.nil_append, hfuel, gapEvents, interfere_nil]
    rw [incr_pass_ok h c extra ok rest m hok]
    refine ⟨_, by rw [hold], ?_, ?_⟩
    · simp [hold, WORD]
    · intro a ha
      have hcong : (interfere ok.2 (atomic_load_reserved h c (interfere ok.1 m)).2).mem
          = (interfere ok.2 (interfere ok.1 m0)).mem :=
        interfere_mem_congr _ _ _ (by
          rw [load_reserved_mem]; exact interfere_mem_congr ok.1 m m0 hm)
      simp [ha, hcong, interfere_append]
  | cons g fs ih =>
    intro m m0 hfail hm
    have hg : g.2.any (Ev.kills h c) = true := hfail g (List.mem_cons_self g fs)
    have hfs : ∀ x ∈ fs, x.2.any (Ev.kills h c) = true :=
      fun x hx => hfail x (List.mem_cons_of_mem g hx)
    have hm1 : ((interfere g.2 (atomic_load_reserved h c (interfere g.1 m)).2).drop h).mem
        = (interfere (g.1 ++ g.2) m0).mem := by
      rw [drop_mem, interfere_append]
      exact interfere_mem_congr _ _ _ (by
        rw [load_reserved_mem]; exact interfere_mem_congr g.1 m m0 hm)
    obtain ⟨hspin, m', hret, hc, hframe⟩ := ih _ _ hfs hm1
    have hfuel : (g :: fs).length + 1 + extra = (fs.length + 1 + extra) + 1 := by
      simp only [List.length_cons]; omega
    have hev : ∀ evs, interfere evs (interfere (g.1 ++ g.2) m0)
        = interfere (g.1 ++ (g.2 ++ evs)) m0 := by
      intro evs
      simp only [interfere_append]
    refine ⟨?_, ?_⟩
    · simp only [List.length_cons, List.cons_append]
      rw [incr_pass_fail h c fs.length g _ m hg, again_done]
      exact hspin
    · rw [hfuel]
      simp only [List.cons_append, List.length_cons, gapEvents]
      rw [incr_pass_fail h c _ g _ m hg, hret]
      rw [hev] at hc hframe
      rw [hev]
      exact ⟨m', rfl, hc, hframe⟩

theorem again_eq_returned (o : Outcome) (m : Machine) (seen p : Nat)
    (ho : o.again = Outcome.returned m seen p) :
    ∃ q, o = Outcome.returned m seen q ∧ p = q + 1 := by
  cases o with
  | spinning m1 => simp [Outcome.again] at ho
  | returned m1 s1 q =>
    simp only [Outcome.again, Outcome.returned.injEq] at ho
    obtain ⟨h1, h2, h3⟩ := ho
    exact ⟨q, by rw [h1, h2], h3.symm⟩

/-- A successful `sc.w` leaves the offered word, reduced, at the address. -/
theorem sc_success_mem (h a v : Nat) (m : Machine)
    (h0 : (atomic_store_conditional h a v m).1 = 0) :
    (atomic_store_conditional h a v m).2.mem a = v % WORD := by
  by_cases hr : m.resv h = some a
  · simp [atomic_store_conditional, hr]
  · simp [atomic_store_conditional, hr] at h0

/-- A failed `sc.w` changes no word. -/
theorem sc_failure_mem (h a v : Nat) (m : Machine)
    (h0 : (atomic_store_conditional h a v m).1 ≠ 0) :
    (atomic_store_conditional h a v m).2.mem = m.mem := by
  by_cases hr : m.resv h = some a
  · simp [atomic_store_conditional, hr] at h0
  · simp [atomic_store_conditional, hr]

/-- Whenever the increment returns, the counter holds the word read by the
last `lr.w` plus one, reduced modulo `2 ^ 32`. -/
theorem incr_returned (h c : Nat) :
    ∀ (fuel : Nat) (env : List (List Ev × List Ev)) (m m' : Machine) (seen p : Nat),
      atomic_increment_lr_sc h c fuel env m = Outcome.returned m' seen p →
      m'.mem c = (seen + 1) % WORD := by
  intro fuel
  induction fuel with
  | zero => intro env m m' seen p hret; simp [atomic_increment_lr_sc] at hret
  | succ fuel ih =>
    intro env m m' seen p hret
    simp only [atomic_increment_lr_sc] at hret
    split at hret
    · obtain ⟨q, hq, _⟩ := again_eq_returned _ _ _ _ hret
      exact ih _ _ _ _ _ hq
    · rename_i hsc
      have h0 := sc_success_mem _ _ _ _ (not_not.mp hsc)
      simp only [Outcome.returned.injEq] at hret
      obtain ⟨h1, h2, _⟩ := hret
      rw [← h1, ← h2, h0, Nat.mod_mod]

/-- The increment with nobody interfering: one pass. -/
theorem incr_alone (h c fuel : Nat) (m : Machine) :
    atomic_increment_lr_sc h c (fuel + 1) [] m =
      Outcome.returned
        (((atomic_load_reserved h c m).2.write c ((m.mem c + 1) % WORD)).drop h)
        (m.mem c) 1 := by
  simp [atomic_increment_lr_sc, atomic_store_conditional, atomic_load_reserved]

/-! ## Interleaved increments -/

theorem write_resv_ne (m : Machine) (a v j : Nat) : (m.write a v).resv j ≠ some a := by
  simp only [Machine.write]
  split
  · simp
  · assumption

theorem drop_resv_mono (m : Machine) (h j a : Nat) (hr : (m.drop h).resv j = some a) :
    m.resv j = some a := by
  simp only [Machine.drop] at hr
  by_cases hj : j = h
  · subst hj; simp at hr
  · rwa [Function.update_noteq hj] at hr

theorem pending_congr (n : Nat) (t1 t2 : Nat → IncThread)
    (heq : ∀ j, j < n → (t2 j).todo = (t1 j).todo) : pending n t2 = pending n t1 := by
  induction n with
  | zero => rfl
  | succ n ih =>
    simp only [pending]
    rw [ih (fun j hj => heq j (Nat.lt_succ_of_lt hj)), heq n (Nat.lt_succ_self n)]

theorem pending_dec (n i : Nat) (t1 t2 : Nat → IncThread) (hi : i < n)
    (hdec : (t2 i).todo + 1 = (t1 i).todo)
    (heq : ∀ j, j ≠ i → (t2 j).todo = (t1 j).todo) :
    pending n t2 + 1 = pending n t1 := by
  induction n with
  | zero => omega
  | succ n ih =>
    simp only [pending]
    by_cases hin : i = n
    · subst hin
      rw [pending_congr i t1 t2 (fun j hj => heq j (Nat.ne_of_lt hj))]
      omega
    · have := ih (by omega)
      rw [heq n (fun hn => hin hn.symm)]
      omega

theorem pending_init (N K n : Nat) (hn : n ≤ N) :
    pending n (fun i => { todo := if i < N then K else 0, old_value := none }) = n * K := by
  induction n with
  | zero => simp [pending]
  | succ n ih =>
    simp only [pending]
    rw [ih (by omega), if_pos (by omega)]
    ring

theorem pending_finished (n : Nat) (thr : Nat → IncThread)
    (hfin : ∀ i, i < n → (thr i).todo = 0) : pending n thr = 0 := by
  induction n with
  | zero => rfl
  | succ n ih =>
    simp only [pending]
    rw [ih (fun i hi => hfin i (Nat.lt_succ_of_lt hi)), hfin n (Nat.lt_succ_self n)]

/-- Every scheduling decision preserves the invariant. -/
theorem inc_step_inv (c N target : Nat) (s : IncSys) (a : Act)
    (hinv : IncInv c N target s) : IncInv c N target (IncSys.step c s a) := by
  obtain ⟨hsum, hword, hres, hout⟩ := hinv
  cases a with
  | lose i =>
    refine ⟨hsum, hword, ?_, hout⟩
    intro j v hov hr
    exact hres j v hov (drop_resv_mono s.m i j c hr)
  | run i =>
    simp only [IncSys.step]
    by_cases htodo : (s.thr i).todo = 0
    · rw [if_pos htodo]; exact ⟨hsum, hword, hres, hout⟩
    · rw [if_neg htodo]
      have hiN : i < N := by
        by_contra hge
        exact htodo (hout i (by omega))
      cases hov : (s.thr i).old_value with
      | none =>
        simp only
        refine ⟨?_, hword, ?_, ?_⟩
        · rw [load_reserved_mem, pending_congr N s.thr _ (fun j _ => ?_)]
          · exact hsum
          · by_cases hj : j = i
            · subst hj; simp
            · simp [Function.update_noteq hj]
        · intro j v hjov hjr
          by_cases hj : j = i
          · subst hj
            simp only [Function.update_same, Option.some.injEq] at hjov
            rw [← hjov]; rfl
          · dsimp only at hjov hjr ⊢
            rw [Function.update_noteq hj] at hjov
            simp only [atomic_load_reserved, Function.update_noteq hj] at hjr
            exact hres j v hjov hjr
        · intro j hj
          have hji : j ≠ i := by omega
          simp only [Function.update_noteq hji]
          exact hout j hj
      | some v =>
        simp only
        by_cases hr : s.m.resv i = some c
        · have hv : v = s.m.mem c := hres i v hov hr
          have hsc : atomic_store_conditional i c ((v + 1) % WORD) s.m
              = (0, (s.m.write c ((v + 1) % WORD)).drop i) := by
            simp [atomic_store_conditional, hr]
          rw [hsc]
          simp only [ne_eq, not_true_eq_false, if_false]
          refine ⟨?_, ?_, ?_, ?_⟩
          · have hp := pending_dec N i s.thr
              (Function.update s.thr i { todo := (s.thr i).todo - 1, old_value := none }) hiN
              (by simp; omega)
              (fun j hj => by simp [Function.update_noteq hj])
            simp only [drop_mem, write_mem_same, Nat.mod_mod]
            rw [← hsum, ← hp, ← hv]
            simp only [WORD]
            omega
          · simp only [drop_mem, write_mem_same, Nat.mod_mod]
            exact Nat.mod_lt _ (by decide)
          · intro j w _ hjr
            exact absurd (drop_resv_mono _ i j c hjr) (write_resv_ne s.m c _ j)
          · intro j hj
            have hji : j ≠ i := by omega
            simp only [Function.update_noteq hji]
            exact hout j hj
        · have hsc : atomic_store_conditional i c ((v + 1) % WORD) s.m = (1, s.m.drop i) := by
            simp [atomic_store_conditional, hr]
          rw [hsc]
          simp only [ne_eq, one_ne_zero, not_false_eq_true, if_true]
          refine ⟨?_, hword, ?_, ?_⟩
          · rw [drop_mem, pending_congr N s.thr _ (fun j _ => ?_)]
            · exact hsum
            · by_cases hj : j = i
              · subst hj; simp
              · simp [Function.update_noteq hj]
          · intro j w hjov hjr
            by_cases hj : j = i
            · subst hj; simp at hjov
            · dsimp only at hjov hjr ⊢
              rw [Function.update_noteq hj] at hjov
              exact hres j w hjov (drop_resv_mono s.m i j c hjr)
          · intro j hj
            have hji : j ≠ i := by omega
            simp only [Function.update_noteq hji]
            exact hout j hj

theorem inc_exec_inv (c N target : Nat) (sched : List Act) (s : IncSys)
    (hinv : IncInv c N target s) : IncInv c N target (IncSys.exec c s sched) := by
  induction sched generalizing s with
  | nil => exact hinv
  | cons a sched ih => exact ih _ (inc_step_inv c N target s a hinv)

theorem inc_init_inv (c N K : Nat) (m : Machine) (hword : m.mem c < WORD) :
    IncInv c N (m.mem c + N * K) (IncSys.init m N K) := by
  refine ⟨?_, hword, ?_, ?_⟩
  · simp only [IncSys.init]
    rw [pending_init N K N (Nat.le_refl N)]
  · intro i v hov; simp [IncSys.init] at hov
  · intro i hi
    simp only [IncSys.init]
    rw [if_neg (by omega)]

/-- Once every context is done, the counter is the initial word plus the
number of calls, modulo `2 ^ 32`. -/
theorem inc_final (c N K : Nat) (m : Machine) (hword : m.mem c < WORD) (sched : List Act)
    (hfin : (IncSys.exec c (IncSys.init m N K) sched).finished N) :
    (IncSys.exec c (IncSys.init m N K) sched).m.mem c = (m.mem c + N * K) % WORD := by
  obtain ⟨hsum, hw, _, _⟩ := inc_exec_inv c N _ sched _ (inc_init_inv c N K m hword)
  rw [pending_finished N _ hfin, Nat.add_zero, Nat.mod_eq_of_lt hw] at hsum
  exact hsum

theorem inc_exec_append (c : Nat) (s : IncSys) (a b : List Act) :
    IncSys.exec c s (a ++ b) = IncSys.exec c (IncSys.exec c s a) b := by
  simp [IncSys.exec, List.foldl_append]

/-- A context left alone completes one call in two steps. -/
theorem inc_call_alone (c i t : Nat) (s : IncSys)
    (ht : s.thr i = { todo := t + 1, old_value := none }) :
    (IncSys.step c (IncSys.step c s (Act.run i)) (Act.run i)).thr
      = Function.update s.thr i { todo := t, old_value := none } := by
  have h1 : IncSys.step c s (Act.run i) =
      { m := (atomic_load_reserved i c s.m).2
        thr := Function.update s.thr i { todo := t + 1, old_value := some (s.m.mem c) } } := by
    simp [IncSys.step, ht, atomic_load_reserved]
  rw [h1]
  simp [IncSys.step, atomic_store_conditional, atomic_load_reserved]

/-- A context left alone completes all its calls. -/
theorem inc_calls_alone (c i : Nat) :
    ∀ (k : Nat) (s : IncSys), s.thr i = { todo := k, old_value := none } →
      (IncSys.exec c s (callsBy i k)).thr
        = Function.update s.thr i { todo := 0, old_value := none } := by
  intro k
  induction k with
  | zero =>
    intro s ht
    rw [← ht]
    exact (Function.update_eq_self i s.thr).symm
  | succ k ih =>
    intro s ht
    have hstep := inc_call_alone c i k s ht
    have := ih (IncSys.step c (IncSys.step c s (Act.run i)) (Act.run i))
      (by rw [hstep]; simp)
    simp only [callsBy, IncSys.exec, List.foldl_cons] at this ⊢
    rw [this, hstep, Function.update_idem]

/-- After the first `n` contexts have run alone, they are done and the others
have not started. -/
theorem seq_state (c N K : Nat) (m : Machine) :
    ∀ n, n ≤ N → (IncSys.exec c (IncSys.init m N K) (seqSchedule n K)).thr
      = fun i => { todo := if i < n then 0 else if i < N then K else 0, old_value := none } := by
  intro n
  induction n with
  | zero =>
    intro _
    funext i
    simp [seqSchedule, IncSys.exec, IncSys.init]
  | succ n ih =>
    intro hn
    have hprev := ih (by omega)
    simp only [seqSchedule]
    rw [inc_exec_append, inc_calls_alone c n K _ (by rw [hprev]; simp; omega), hprev]
    funext i
    by_cases hi : i = n
    · subst hi; simp
    · rw [Function.update_noteq hi]
      by_cases hlt : i < n
      · simp [hlt, Nat.lt_succ_of_lt hlt]
      · have : ¬ i < n + 1 := by omega
        simp [hlt, this]

/-- The sequential schedule completes every call. -/
theorem seq_finished (c N K : Nat) (m : Machine) :
    (IncSys.exec c (IncSys.init m N K) (seqSchedule N K)).finished N := by
  intro i hi
  rw [seq_state c N K m N (Nat.le_refl N)]
  simp [hi]

/-! ## Contention for one lock -/

theorem holds_update_ne (s : LockSys) (m' : Machine) (i j : Nat) (p : Pc) (hj : j ≠ i) :
    ({ m := m', pc := Function.update s.pc i p } : LockSys).holds j ↔ s.holds j := by
  simp [LockSys.holds, Function.update_noteq hj]

theorem holds_update_same (s : LockSys) (m' : Machine) (i : Nat) (p : Pc) :
    ({ m := m', pc := Function.update s.pc i p } : LockSys).holds i ↔
      (p = Pc.crit ∨ p = Pc.rel) := by
  simp [LockSys.holds]

/-- A context takes the lock: the lock word was 0, is now 1, and the write
has cancelled every reservation on it. -/
theorem lockinv_acquire (lock : Nat) (s : LockSys) (i : Nat) (m' : Machine)
    (hinv : LockInv lock s) (h0 : s.m.mem lock = 0) (h1 : m'.mem lock = 1)
    (hres : ∀ j, m'.resv j ≠ some lock) :
    LockInv lock { m := m', pc := Function.update s.pc i Pc.crit } := by
  obtain ⟨_, hL2, _⟩ := hinv
  have hnone : ∀ j, ¬ s.holds j := fun j hj => by
    have := hL2 j hj
    omega
  have honly : ∀ a, ({ m := m', pc := Function.update s.pc i Pc.crit } : LockSys).holds a →
      a = i := by
    intro a ha
    by_contra hne
    exact hnone a ((holds_update_ne s m' i a Pc.crit hne).mp ha)
  refine ⟨fun a b ha hb => ?_, fun _ _ => h1, fun j _ hr => absurd hr (hres j)⟩
  rw [honly a ha, honly b hb]

/-- A context that does not hold the lock moves inside the acquire loop. -/
theorem lockinv_idle (lock : Nat) (s : LockSys) (i : Nat) (m' : Machine) (p : Pc)
    (hinv : LockInv lock s) (hp : p = Pc.entry ∨ p = Pc.sc)
    (hmem : ∀ j, j ≠ i → s.holds j → m'.mem lock = 1)
    (hsc : ∀ j, Function.update s.pc i p j = Pc.sc → m'.resv j = some lock →
      m'.mem lock = 0) :
    LockInv lock { m := m', pc := Function.update s.pc i p } := by
  obtain ⟨hL1, _, _⟩ := hinv
  have hold : ∀ a, ({ m := m', pc := Function.update s.pc i p } : LockSys).holds a →
      a ≠ i ∧ s.holds a := by
    intro a ha
    have hne : a ≠ i := by
      intro hai
      subst hai
      rcases (holds_update_same s m' a p).mp ha with h | h <;>
        rcases hp with h' | h' <;> rw [h'] at h <;> cases h
    exact ⟨hne, (holds_update_ne s m' i a p hne).mp ha⟩
  refine ⟨fun a b ha hb => hL1 a b (hold a ha).2 (hold b hb).2,
    fun a ha => hmem a (hold a ha).1 (hold a ha).2, hsc⟩

/-- The holder releases: the lock word becomes 0. -/
theorem lockinv_release (lock : Nat) (s : LockSys) (i : Nat) (m' : Machine)
    (hinv : LockInv lock s) (hi : s.holds i) (h0 : m'.mem lock = 0) :
    LockInv lock { m := m', pc := Function.update s.pc i Pc.entry } := by
  obtain ⟨hL1, _, _⟩ := hinv
  have hnone : ∀ a, ¬ ({ m := m', pc := Function.update s.pc i Pc.entry } : LockSys).holds a := by
    intro a ha
    by_cases hai : a = i
    · subst hai
      rcases (holds_update_same s m' a Pc.entry).mp ha with h | h <;> cases h
    · exact hai (hL1 a i ((holds_update_ne s m' i a Pc.entry hai).mp ha) hi)
  exact ⟨fun a _ ha _ => absurd ha (hnone a), fun a ha => absurd ha (hnone a),
    fun _ _ _ => h0⟩

/-- The holder runs a step of its critical section. -/
theorem lockinv_crit (lock : Nat) (s : LockSys) (i : Nat) (m' : Machine) (p : Pc)
    (hinv : LockInv lock s) (hpc : s.pc i = Pc.crit) (hp : p = Pc.crit ∨ p = Pc.rel)
    (hmem : m'.mem lock = s.m.mem lock)
    (hres : ∀ j, m'.resv j = some lock → s.m.resv j = some lock) :
    LockInv lock { m := m', pc := Function.update s.pc i p } := by
  obtain ⟨hL1, hL2, hL3⟩ := hinv
  have hold : ∀ a, ({ m := m', pc := Function.update s.pc i p } : LockSys).holds a →
      s.holds a := by
    intro a ha
    by_cases hai : a = i
    · subst hai; exact Or.inl hpc
    · exact (holds_update_ne s m' i a p hai).mp ha
  refine ⟨fun a b ha hb => hL1 a b (hold a ha) (hold b hb),
    fun a ha => hmem.trans (hL2 a (hold a ha)), fun j hj hr => ?_⟩
  have hji : j ≠ i := by
    intro h
    subst h
    rcases hp with hp | hp <;> simp [hp] at hj
  dsimp only at hj hr ⊢
  rw [Function.update_noteq hji] at hj
  exact hmem.trans (hL3 j hj (hres j hr))

theorem one_mod_word : 1 % WORD = 1 := by decide

theorem zero_mod_word : 0 % WORD = 0 := by decide

/-- Every scheduling decision preserves the invariant. -/
theorem lock_step_inv (impl : Nat → LockImpl) (cs : Nat → Machine → Machine × Bool)
    (lock : Nat)
    (hcs : LockFrame cs lock) (s : LockSys) (a : Act) (hinv : LockInv lock s) :
    LockInv lock (LockSys.step impl cs lock s a) := by
  have hL := hinv
  obtain ⟨hL1, hL2, hL3⟩ := hL
  cases a with
  | lose i =>
    exact ⟨hL1, hL2, fun j hj hr => hL3 j hj (drop_resv_mono s.m i j lock hr)⟩
  | run i =>
    have hswap1 : ∀ j, (s.m.write lock 1).resv j ≠ some lock := write_resv_ne s.m lock 1
    simp only [LockSys.step]
    cases hpc : s.pc i with
    | entry =>
      have hni : ¬ s.holds i := by simp [LockSys.holds, hpc]
      cases himpl : impl i with
      | lrsc =>
        simp only
        refine lockinv_idle lock s i _ _ hinv (by split <;> simp)
          (fun j _ hj => hL2 j hj) (fun j hj hr => ?_)
        by_cases hji : j = i
        · subst hji
          simp only [Function.update_same] at hj
          by_contra hne
          rw [load_reserved_mem] at hne
          simp only [atomic_load_reserved] at hj
          rw [if_pos hne] at hj
          cases hj
        · rw [Function.update_noteq hji] at hj
          simp only [atomic_load_reserved, Function.update_noteq hji] at hr
          exact hL3 j hj hr
      | swap =>
        simp only [atomic_swap]
        by_cases h0 : s.m.mem lock = 0
        · rw [if_neg (by simpa using h0)]
          exact lockinv_acquire lock s i _ hinv h0
            (by rw [write_mem_same, one_mod_word]) hswap1
        · rw [if_pos h0]
          exact lockinv_idle lock s i _ _ hinv (Or.inl rfl)
            (fun _ _ _ => by rw [write_mem_same, one_mod_word])
            (fun j _ hr => absurd hr (hswap1 j))
    | sc =>
      have hni : ¬ s.holds i := by simp [LockSys.holds, hpc]
      simp only
      by_cases hr : s.m.resv i = some lock
      · have h0 := hL3 i hpc hr
        simp only [atomic_store_conditional, if_pos hr, ne_eq, not_true_eq_false, if_false]
        refine lockinv_acquire lock s i _ hinv h0
          (by rw [drop_mem, write_mem_same, one_mod_word])
          (fun j hj => hswap1 j (drop_resv_mono _ i j lock hj))
      · simp only [atomic_store_conditional, if_neg hr, ne_eq, one_ne_zero,
          not_false_eq_true, if_true]
        refine lockinv_idle lock s i _ _ hinv (Or.inl rfl)
          (fun j _ hj => by rw [drop_mem]; exact hL2 j hj) (fun j hj hjr => ?_)
        by_cases hji : j = i
        · subst hji; simp at hj
        · rw [Function.update_noteq hji] at hj
          rw [drop_mem]
          exact hL3 j hj (drop_resv_mono s.m i j lock hjr)
    | crit =>
      simp only
      exact lockinv_crit lock s i _ _ hinv hpc (by split <;> simp) (hcs i s.m).1 (hcs i s.m).2
    | rel =>
      have hi : s.holds i := Or.inr hpc
      cases himpl : impl i with
      | lrsc =>
        simp only
        exact lockinv_release lock s i _ hinv hi
          (by rw [spinlock_release, write_mem_same, zero_mod_word])
      | swap =>
        simp only
        exact lockinv_release lock s i _ hinv hi
          (by rw [release_lock, atomic_swap, write_mem_same, zero_mod_word])

theorem lock_exec_inv (impl : Nat → LockImpl) (cs : Nat → Machine → Machine × Bool)
    (lock : Nat)
    (hcs : LockFrame cs lock) (sched : List Act) (s : LockSys) (hinv : LockInv lock s) :
    LockInv lock (LockSys.exec impl cs lock s sched) := by
  induction sched generalizing s with
  | nil => exact hinv
  | cons a sched ih => exact ih _ (lock_step_inv impl cs lock hcs s a hinv)

theorem lock_init_inv (lock : Nat) (m : Machine) : LockInv lock (LockSys.init m) := by
  refine ⟨fun i _ hi => ?_, fun i hi => ?_, fun i hi => ?_⟩
  · rcases hi with h | h <;> cases h
  · rcases hi with h | h <;> cases h
  · cases hi

/-- A critical section that stores to a word other than the lock satisfies
the frame condition. -/
theorem frame_write (a lock : Nat) (f : Nat → Machine → Nat) (fin : Nat → Machine → Bool)
    (hne : a ≠ lock) : LockFrame (fun i m => (m.write a (f i m), fin i m)) lock := by
  intro i m
  refine ⟨write_mem_other m a lock _ (fun h => hne h.symm), fun j hj => ?_⟩
  simp only [Machine.write] at hj
  split at hj
  · cases hj
  · exact hj

/-! ## The mutex demo in a single context -/

/-- Running `spinlock_acquire` on a free lock with nobody interfering: one pass. -/
theorem spinlock_acquire_free (h lock fuel : Nat) (m : Machine) (hfree : m.mem lock = 0) :
    spinlock_acquire h lock (fuel + 1) [] m =
      Outcome.returned (((atomic_load_reserved h lock m).2.write lock 1).drop h) 0 1 := by
  simp [spinlock_acquire, atomic_store_conditional, atomic_load_reserved, hfree]

/-- One pass of the loop of `increment_shared_counter` from a state with the
spinlock free. -/
theorem critical_section_spec (g : Globals) (hd : g.Distinct) (h fuel : Nat) (thread_id : Int)
    (m : Machine) (hfree : m.mem g.spinlock = 0) :
    ∃ m', critical_section g h (fuel + 1) thread_id m = some m' ∧
      m'.mem g.spinlock = 0 ∧
      m'.mem g.shared_counter = (m.mem g.shared_counter + 1) % WORD ∧
      m'.mem g.thread1_iterations =
        (if thread_id = 1 then (m.mem g.thread1_iterations + 1) % WORD
          else m.mem g.thread1_iterations) ∧
      m'.mem g.thread2_iterations =
        (if thread_id = 1 then m.mem g.thread2_iterations
          else (m.mem g.thread2_iterations + 1) % WORD) := by
  obtain ⟨h01, h02, h03, h12, h13, h23⟩ := hd
  simp only [critical_section, spinlock_acquire_free h g.spinlock fuel m hfree]
  refine ⟨_, rfl, ?_, ?_, ?_, ?_⟩
  · simp [spinlock_release, WORD]
  · by_cases ht : thread_id = 1
    · simp [spinlock_release, ht, h01.symm, h12, h01, atomic_load_reserved]
    · simp [spinlock_release, ht, h01.symm, h13, h01, atomic_load_reserved]
  · by_cases ht : thread_id = 1
    · simp [spinlock_release, ht, h02.symm, h12.symm, h02, atomic_load_reserved]
    · simp [spinlock_release, ht, h02.symm, h12.symm, h23, h02, atomic_load_reserved]
  · by_cases ht : thread_id = 1
    · simp [spinlock_release, ht, h03.symm, h13.symm, h23.symm, h03, atomic_load_reserved]
    · simp [spinlock_release, ht, h03.symm, h13.symm, h03, atomic_load_reserved]

/-- The loop of `increment_shared_counter` with `n` passes to go, from a state
with the spinlock free and 32-bit words in the three counters. -/
theorem increment_loop_spec (g : Globals) (hd : g.Distinct) (h fuel : Nat) (thread_id : Int) :
    ∀ (n : Nat) (m : Machine), m.mem g.spinlock = 0 →
    m.mem g.shared_counter < WORD → m.mem g.thread1_iterations < WORD →
    m.mem g.thread2_iterations < WORD →
    ∃ m', increment_loop g h (fuel + 1) thread_id n m = some (m', n) ∧
      m'.mem g.spinlock = 0 ∧
      m'.mem g.shared_counter = (m.mem g.shared_counter + n) % WORD ∧
      m'.mem g.thread1_iterations =
        (if thread_id = 1 then (m.mem g.thread1_iterations + n) % WORD
          else m.mem g.thread1_iterations) ∧
      m'.mem g.thread2_iterations =
        (if thread_id = 1 then m.mem g.thread2_iterations
          else (m.mem g.thread2_iterations + n) % WORD) := by
  intro n
  induction n with
  | zero =>
    intro m hfree hs h1 h2
    refine ⟨m, rfl, hfree, (Nat.mod_eq_of_lt hs).symm, ?_, ?_⟩
    · split
      · exact (Nat.mod_eq_of_lt h1).symm
      · rfl
    · split
      · rfl
      · exact (Nat.mod_eq_of_lt h2).symm
  | succ n ih =>
    intro m hfree hs h1 h2
    have hW : 0 < WORD := by decide
    obtain ⟨m1, hcs, hfree1, hsh1, ht1, ht2⟩ :=
      critical_section_spec g hd h fuel thread_id m hfree
    have hs1 : m1.mem g.shared_counter < WORD := by rw [hsh1]; exact Nat.mod_lt _ hW
    have h11 : m1.mem g.thread1_iterations < WORD := by
      rw [ht1]; split
      · exact Nat.mod_lt _ hW
      · exact h1
    have h21 : m1.mem g.thread2_iterations < WORD := by
      rw [ht2]; split
      · exact h2
      · exact Nat.mod_lt _ hW
    obtain ⟨m2, hloop, hfree2, hsh2, hu1, hu2⟩ := ih m1 hfree1 hs1 h11 h21
    simp only [increment_loop, hcs, hloop]
    refine ⟨m2, rfl, hfree2, ?_, ?_, ?_⟩
    · rw [hsh2, hsh1]; simp only [WORD]; omega
    · rw [hu1, ht1]
      by_cases ht : thread_id = 1
      · simp only [ht, if_true, WORD]; omega
      · simp only [ht, if_false]
    · rw [hu2, ht2]
      by_cases ht : thread_id = 1
      · simp only [ht, if_true]
      · simp only [ht, if_false, WORD]; omega

/-- Reading of the sum of a word and a count as a two's-complement `int`,
when the `int` sum does not exceed `INT_MAX`. -/
theorem toInt32_add (e n : Nat) (he : e < 2 ^ 32) (hsum : toInt32 e + (n : Int) < 2 ^ 31) :
    toInt32 ((e + n) % 2 ^ 32) = toInt32 e + (n : Int) := by
  unfold toInt32 at *
  split at hsum <;> split <;> omega

/-- State of the mutex demo after the four initialising stores of `main`. -/
theorem main_init_mem (g : Globals) (hd : g.Distinct) (m : Machine) :
    ((((m.write g.spinlock 0).write g.shared_counter 0).write g.thread1_iterations 0).write
        g.thread2_iterations 0).mem g.spinlock = 0 ∧
    ((((m.write g.spinlock 0).write g.shared_counter 0).write g.thread1_iterations 0).write
        g.thread2_iterations 0).mem g.shared_counter = 0 ∧
    ((((m.write g.spinlock 0).write g.shared_counter 0).write g.thread1_iterations 0).write
        g.thread2_iterations 0).mem g.thread1_iterations = 0 ∧
    ((((m.write g.spinlock 0).write g.shared_counter 0).write g.thread1_iterations 0).write
        g.thread2_iterations 0).mem g.thread2_iterations = 0 := by
  obtain ⟨h01, h02, h03, h12, h13, h23⟩ := hd
  refine ⟨?_, ?_, ?_, ?_⟩
  · simp [h01, h02, h03, WORD]
  · simp [h12, h13, WORD]
  · simp [h23, WORD]
  · simp [WORD]

/-- Function `main` of the mutex demo returns with the spinlock free, the shared
counter at 100000 and both per-thread counters at 50000. -/
theorem main_spec (g : Globals) (hd : g.Distinct) (h fuel : Nat) (m : Machine) :
    ∃ m', MutexDemo.main g h (fuel + 1) m = some m' ∧ m'.mem g.spinlock = 0 ∧
      m'.mem g.shared_counter = 100000 ∧ m'.mem g.thread1_iterations = 50000 ∧
      m'.mem g.thread2_iterations = 50000 := by
  have hn : (50000 : Int).toNat = 50000 := rfl
  obtain ⟨i0, i1, i2, i3⟩ := main_init_mem g hd m
  obtain ⟨m1, hrun1, hf1, hs1, ht11, ht12⟩ :=
    increment_loop_spec g hd h fuel 1 50000 _ i0
      (by rw [i1]; decide) (by rw [i2]; decide) (by rw [i3]; decide)
  rw [i1] at hs1
  rw [i2] at ht11
  rw [i3] at ht12
  simp only [if_true] at ht11 ht12
  obtain ⟨m2, hrun2, hf2, hs2, ht21, ht22⟩ :=
    increment_loop_spec g hd h fuel 2 50000 m1 hf1
      (by rw [hs1]; decide) (by rw [ht11]; decide) (by rw [ht12]; decide)
  rw [hs1] at hs2
  rw [ht11] at ht21
  rw [ht12] at ht22
  have h21 : ¬ ((2 : Int) = 1) := by decide
  simp only [h21, if_false] at ht21 ht22
  refine ⟨m2, ?_, hf2, ?_, ?_, ?_⟩
  · simp only [MutexDemo.main, thread1_function, thread2_function, increment_shared_counter,
      delay, hn, hrun1, hrun2]
  · rw [hs2]; decide
  · rw [ht21]; decide
  · rw [ht22]; decide

/-! ## The two acquire loops -/

/-- Whenever `acquire_lock` returns, the lock word is 1 and the last swap
read 0. -/
theorem acquire_lock_returned (lock : Nat) :
    ∀ (fuel : Nat) (env : List (List Ev)) (m m' : Machine) (seen p : Nat),
      acquire_lock lock fuel env m = Outcome.returned m' seen p →
      m'.mem lock = 1 ∧ seen = 0 := by
  intro fuel
  induction fuel with
  | zero => intro env m m' seen p hret; simp [acquire_lock] at hret
  | succ fuel ih =>
    intro env m m' seen p hret
    simp only [acquire_lock] at hret
    split at hret
    · obtain ⟨q, hq, _⟩ := again_eq_returned _ _ _ _ hret
      exact ih _ _ _ _ _ hq
    · rename_i hold
      simp only [Outcome.returned.injEq] at hret
      obtain ⟨h1, h2, _⟩ := hret
      refine ⟨?_, by rw [← h2]; exact not_not.mp hold⟩
      rw [← h1]
      simp [atomic_swap, one_mod_word]

/-- Whenever `spinlock_acquire` returns, the lock word is 1 and the last
`lr.w` read 0. -/
theorem spinlock_acquire_returned (h lock : Nat) :
    ∀ (fuel : Nat) (env : List (List Ev × List Ev)) (m m' : Machine) (seen p : Nat),
      spinlock_acquire h lock fuel env m = Outcome.returned m' seen p →
      m'.mem lock = 1 ∧ seen = 0 := by
  intro fuel
  induction fuel with
  | zero => intro env m m' seen p hret; simp [spinlock_acquire] at hret
  | succ fuel ih =>
    intro env m m' seen p hret
    simp only [spinlock_acquire] at hret
    split at hret
    · obtain ⟨q, hq, _⟩ := again_eq_returned _ _ _ _ hret
      exact ih _ _ _ _ _ hq
    · rename_i hlr
      split at hret
      · obtain ⟨q, hq, _⟩ := again_eq_returned _ _ _ _ hret
        exact ih _ _ _ _ _ hq
      · rename_i hsc
        have h0 := sc_success_mem _ _ _ _ (not_not.mp hsc)
        simp only [Outcome.returned.injEq] at hret
        obtain ⟨h1, h2, _⟩ := hret
        refine ⟨?_, by rw [← h2]; exact not_not.mp hlr⟩
        rw [← h1, h0, one_mod_word]

/-- First pass of `acquire_lock` on a lock that nobody writes before the
swap. -/
theorem acquire_lock_free (lock fuel : Nat) (env : List (List Ev)) (m : Machine)
    (hfree : m.mem lock = 0) (hq : (env.headD []).any (Ev.writesTo lock) = false) :
    acquire_lock lock (fuel + 1) env m =
      Outcome.returned ((interfere (env.headD []) m).write lock 1) 0 1 := by
  have h0 : (interfere (env.headD []) m).mem lock = 0 := by
    rw [interfere_mem_kept _ m lock hq, hfree]
  simp only [acquire_lock, atomic_swap, h0, ne_eq, not_true_eq_false, if_false]

/-- First pass of `spinlock_acquire` on a lock that nobody writes before the
`lr.w`, with the reservation surviving until the `sc.w`. -/
theorem spinlock_acquire_quiet (h lock fuel : Nat) (env : List (List Ev × List Ev))
    (m : Machine) (hfree : m.mem lock = 0)
    (hq1 : (env.headD ([], [])).1.any (Ev.writesTo lock) = false)
    (hq2 : (env.headD ([], [])).2.any (Ev.kills h lock) = false) :
    ∃ m', spinlock_acquire h lock (fuel + 1) env m = Outcome.returned m' 0 1 ∧
      m'.mem lock = 1 := by
  have h0 : (interfere (env.headD ([], [])).1 m).mem lock = 0 := by
    rw [interfere_mem_kept _ m lock hq1, hfree]
  have hr := interfere_resv_kept (env.headD ([], [])).2
    (atomic_load_reserved h lock (interfere (env.headD ([], [])).1 m)).2 h lock hq2
    (by simp [atomic_load_reserved])
  have hlr : (atomic_load_reserved h lock (interfere (env.headD ([], [])).1 m)).1 = 0 := h0
  have heq : spinlock_acquire h lock (fuel + 1) env m =
      Outcome.returned
        (((interfere (env.headD ([], [])).2
          (atomic_load_reserved h lock (interfere (env.headD ([], [])).1 m)).2).write
            lock 1).drop h) 0 1 := by
    simp only [spinlock_acquire, hlr, ne_eq, not_true_eq_false, if_false,
      atomic_store_conditional, if_pos hr]
  exact ⟨_, heq, by simp [one_mod_word]⟩

theorem again_passes (o : Outcome) :
    o.again.passes = if o.done = true then o.passes + 1 else 0 := by
  cases o <;> rfl

theorem apply_binary (lock : Nat) (e : Ev) (m : Machine) (hb : e.binaryOn lock = true)
    (hm : m.mem lock ≤ 1) : (e.apply m).mem lock ≤ 1 := by
  cases e with
  | write a v =>
    by_cases ha : a = lock
    · subst ha
      simp only [Ev.binaryOn, ne_eq, not_true_eq_false, decide_False, Bool.false_or,
        decide_eq_true_eq] at hb
      simpa [Ev.apply] using hb
    · have hne : lock ≠ a := fun h => ha h.symm
      simpa [Ev.apply, hne] using hm
  | lose i => simpa [Ev.apply] using hm

theorem interfere_binary (lock : Nat) (evs : List Ev) (m : Machine)
    (hb : evs.all (Ev.binaryOn lock) = true) (hm : m.mem lock ≤ 1) :
    (interfere evs m).mem lock ≤ 1 := by
  induction evs generalizing m with
  | nil => simpa using hm
  | cons e evs ih =>
    simp only [List.all_cons, Bool.and_eq_true] at hb
    rw [interfere_cons]
    exact ih _ hb.2 (apply_binary lock e m hb.1 hm)

theorem quietGaps_headD (env : List (List Ev)) :
    (quietGaps env).headD ([], []) = (env.headD [], []) := by
  cases env <;> rfl

theorem quietGaps_tail (env : List (List Ev)) :
    (quietGaps env).tail = quietGaps env.tail := by
  cases env <;> rfl

theorem headD_binary (lock : Nat) (env : List (List Ev))
    (hb : ∀ evs ∈ env, evs.all (Ev.binaryOn lock) = true) :
    (env.headD []).all (Ev.binaryOn lock) = true := by
  cases env with
  | nil => rfl
  | cons evs rest => exact hb evs (List.mem_cons_self evs rest)

/-- On a lock word that only ever holds 0 or 1, and with nothing happening
between the `lr.w` and the `sc.w` of a pass, the two acquire loops stay in
step: same passes, same memory. -/
theorem acquire_agree (h lock : Nat) :
    ∀ (fuel : Nat) (env : List (List Ev)) (m1 m2 : Machine),
      m1.mem = m2.mem → m1.mem lock ≤ 1 →
      (∀ evs ∈ env, evs.all (Ev.binaryOn lock) = true) →
      (acquire_lock lock fuel env m1).done
          = (spinlock_acquire h lock fuel (quietGaps env) m2).done ∧
      (acquire_lock lock fuel env m1).passes
          = (spinlock_acquire h lock fuel (quietGaps env) m2).passes ∧
      (acquire_lock lock fuel env m1).machine.mem
          = (spinlock_acquire h lock fuel (quietGaps env) m2).machine.mem := by
  intro fuel
  induction fuel with
  | zero => intro env m1 m2 hm _ _; exact ⟨rfl, rfl, hm⟩
  | succ fuel ih =>
    intro env m1 m2 hm hle hb
    have hX : (interfere (env.headD []) m1).mem = (interfere (env.headD []) m2).mem :=
      interfere_mem_congr _ m1 m2 hm
    have hXle : (interfere (env.headD []) m1).mem lock ≤ 1 :=
      interfere_binary lock _ m1 (headD_binary lock env hb) hle
    have htail : ∀ evs ∈ env.tail, evs.all (Ev.binaryOn lock) = true :=
      fun evs hevs => hb evs (List.mem_of_mem_tail hevs)
    simp only [acquire_lock, spinlock_acquire, quietGaps_headD, quietGaps_tail, atomic_swap,
      interfere_nil]
    have hlr : (atomic_load_reserved h lock (interfere (env.headD []) m2)).1
        = (interfere (env.headD []) m1).mem lock := by
      simp only [atomic_load_reserved]; rw [hX]
    rw [hlr]
    by_cases h0 : (interfere (env.headD []) m1).mem lock = 0
    · have hsc : atomic_store_conditional h lock 1
          (atomic_load_reserved h lock (interfere (env.headD []) m2)).2
          = (0, ((atomic_load_reserved h lock (interfere (env.headD []) m2)).2.write
              lock 1).drop h) := by
        simp [atomic_store_conditional, atomic_load_reserved]
      simp only [h0, ne_eq, not_true_eq_false, if_false, hsc]
      refine ⟨rfl, rfl, ?_⟩
      simp only [Outcome.machine, drop_mem, Machine.write, atomic_load_reserved, hX]
    · have h1 : (interfere (env.headD []) m1).mem lock = 1 := by omega
      simp only [h0, ne_eq, not_false_eq_true, if_true]
      have hmem : ((interfere (env.headD []) m1).write lock 1).mem
          = (atomic_load_reserved h lock (interfere (env.headD []) m2)).2.mem := by
        rw [load_reserved_mem, ← hX]
        simp only [Machine.write, one_mod_word]
        rw [← h1]
        exact Function.update_eq_self lock _
      obtain ⟨hd, hp, hmm⟩ := ih env.tail _ _ hmem
        (by rw [write_mem_same, one_mod_word]) htail
      refine ⟨by simp only [again_done, hd], ?_, by simp only [again_machine, hmm]⟩
      rw [again_passes, again_passes, hd, hp]

/-! ## Acquire on a held lock -/

theorem headD_no_write (lock : Nat) (env : List (List Ev))
    (hq : ∀ evs ∈ env, evs.any (Ev.writesTo lock) = false) :
    (env.headD []).any (Ev.writesTo lock) = false := by
  cases env with
  | nil => rfl
  | cons evs rest => exact hq evs (List.mem_cons_self evs rest)

theorem headD_gap_no_write (lock : Nat) (env : List (List Ev × List Ev))
    (hq : ∀ g ∈ env, g.1.any (Ev.writesTo lock) = false ∧ g.2.any (Ev.writesTo lock) = false) :
    (env.headD ([], [])).1.any (Ev.writesTo lock) = false := by
  cases env with
  | nil => rfl
  | cons g rest => exact (hq g (List.mem_cons_self g rest)).1

/-- On a lock word that holds 1 and that nobody else writes, `acquire_lock`
is still spinning after any number of passes, the word still at 1. -/
theorem acquire_lock_held (lock : Nat) :
    ∀ (n : Nat) (env : List (List Ev)) (m : Machine), m.mem lock = 1 →
      (∀ evs ∈ env, evs.any (Ev.writesTo lock) = false) →
      ∃ m', acquire_lock lock n env m = Outcome.spinning m' ∧ m'.mem lock = 1 := by
  intro n
  induction n with
  | zero => intro env m hheld _; exact ⟨m, rfl, hheld⟩
  | succ n ih =>
    intro env m hheld hq
    have hX : (interfere (env.headD []) m).mem lock = 1 := by
      rw [interfere_mem_kept _ m lock (headD_no_write lock env hq), hheld]
    obtain ⟨m', hrec, hm'⟩ := ih env.tail ((interfere (env.headD []) m).write lock 1)
      (by rw [write_mem_same, one_mod_word])
      (fun evs hevs => hq evs (List.mem_of_mem_tail hevs))
    refine ⟨m', ?_, hm'⟩
    simp only [acquire_lock, atomic_swap, hX, ne_eq, one_ne_zero, not_false_eq_true, if_true,
      hrec, Outcome.again]

/-- On a lock word that holds 1 and that nobody else writes,
`spinlock_acquire` is still spinning after any number of passes, the word
still at 1. -/
theorem spinlock_acquire_held (h lock : Nat) :
    ∀ (n : Nat) (env : List (List Ev × List Ev)) (m : Machine), m.mem lock = 1 →
      (∀ g ∈ env, g.1.any (Ev.writesTo lock) = false ∧
        g.2.any (Ev.writesTo lock) = false) →
      ∃ m', spinlock_acquire h lock n env m = Outcome.spinning m' ∧ m'.mem lock = 1 := by
  intro n
  induction n with
  | zero => intro env m hheld _; exact ⟨m, rfl, hheld⟩
  | succ n ih =>
    intro env m hheld hq
    have hX : (interfere (env.headD ([], [])).1 m).mem lock = 1 := by
      rw [interfere_mem_kept _ m lock (headD_gap_no_write lock env hq), hheld]
    have hlr : (atomic_load_reserved h lock (interfere (env.headD ([], [])).1 m)).1 = 1 := hX
    obtain ⟨m', hrec, hm'⟩ := ih env.tail
      (atomic_load_reserved h lock (interfere (env.headD ([], [])).1 m)).2
      (by rw [load_reserved_mem]; exact hX)
      (fun g hg => hq g (List.mem_of_mem_tail hg))
    refine ⟨m', ?_, hm'⟩
    simp only [spinlock_acquire, hlr, ne_eq, one_ne_zero, not_false_eq_true, if_true,
      hrec, Outcome.again]

/-! ## Interleaved non-atomic increments -/

theorem racy_step_lt (c : Nat) (s : RacySys) (a : Act) (hlt : s.m.mem c < WORD) :
    (RacySys.step c s a).m.mem c < WORD := by
  cases a with
  | lose i => exact hlt
  | run i =>
    simp only [RacySys.step]
    split
    · exact hlt
    · exact hlt
    · simp only [write_mem_same]
      exact Nat.mod_lt _ (by decide)
    · exact hlt

/-- The counter stays a 32-bit word along every schedule. -/
theorem racy_exec_lt (c : Nat) (sched : List Act) (s : RacySys) (hlt : s.m.mem c < WORD) :
    (RacySys.exec c s sched).m.mem c < WORD := by
  induction sched generalizing s with
  | nil => exact hlt
  | cons a sched ih => exact ih _ (racy_step_lt c s a hlt)

/-- Both contexts read, both modify, both write: both return and the counter
has advanced by one only. -/
theorem lost_update_run (c : Nat) (m : Machine) :
    (RacySys.exec c (RacySys.init m 2) lostUpdate).finished 2 ∧
    (RacySys.exec c (RacySys.init m 2) lostUpdate).m.mem c = (m.mem c + 1) % WORD := by
  have h10 : (1 : Nat) ≠ 0 := by decide
  have h01 : (0 : Nat) ≠ 1 := by decide
  refine ⟨?_, ?_⟩
  · intro i hi
    have hcases : i = 0 ∨ i = 1 := by omega
    rcases hcases with h | h <;> subst h <;>
      simp [RacySys.exec, lostUpdate, RacySys.step, RacySys.init, Function.update_noteq h10,
        Function.update_noteq h01]
  · simp [RacySys.exec, lostUpdate, RacySys.step, RacySys.init, Function.update_noteq h10,
      Function.update_noteq h01]

/-- Context 0 runs its call, then context 1 its own: the counter has advanced
by two. -/
theorem one_after_the_other_run (c : Nat) (m : Machine) :
    (RacySys.exec c (RacySys.init m 2) oneAfterTheOther).finished 2 ∧
    (RacySys.exec c (RacySys.init m 2) oneAfterTheOther).m.mem c = (m.mem c + 2) % WORD := by
  have h10 : (1 : Nat) ≠ 0 := by decide
  have h01 : (0 : Nat) ≠ 1 := by decide
  refine ⟨?_, ?_⟩
  · intro i hi
    have hcases : i = 0 ∨ i = 1 := by omega
    rcases hcases with h | h <;> subst h <;>
      simp [RacySys.exec, oneAfterTheOther, RacySys.step, RacySys.init,
        Function.update_noteq h10, Function.update_noteq h01]
  · simp [RacySys.exec, oneAfterTheOther, RacySys.step, RacySys.init,
      Function.update_noteq h10, Function.update_noteq h01]

/-! ## The atomic demo in a single context -/

/-- The four fetch-and-modify calls, from `shared_counter = 0`. -/
theorem demo_ops_spec (g : AtomicGlobals) (m : Machine) (h0 : m.mem g.shared_counter = 0) :
    (demonstrate_atomic_operations g m).1 = [0, 5, 100, 100] ∧
    (demonstrate_atomic_operations g m).2.mem g.shared_counter = 0x80000064 ∧
    ∀ a, a ≠ g.shared_counter → (demonstrate_atomic_operations g m).2.mem a = m.mem a := by
  refine ⟨?_, ?_, ?_⟩
  · simp [demonstrate_atomic_operations, atomic_add, atomic_swap, atomic_and, atomic_or, h0,
      WORD]
    decide
  · simp [demonstrate_atomic_operations, atomic_add, atomic_swap, atomic_and, atomic_or, h0,
      WORD]
    decide
  · intro a ha
    simp [demonstrate_atomic_operations, atomic_add, atomic_swap, atomic_and, atomic_or, ha]

/-- The loop of `demonstrate_lock_free_increment` with `n` passes to go. -/
theorem lock_free_loop_spec (g : AtomicGlobals) (h fuel : Nat) :
    ∀ (n : Nat) (m : Machine), m.mem g.shared_counter < WORD →
    ∃ m', lock_free_loop g h (fuel + 1) n m = some m' ∧
      m'.mem g.shared_counter = (m.mem g.shared_counter + n) % WORD ∧
      ∀ a, a ≠ g.shared_counter → m'.mem a = m.mem a := by
  intro n
  induction n with
  | zero =>
    intro m hlt
    exact ⟨m, rfl, (Nat.mod_eq_of_lt hlt).symm, fun _ _ => rfl⟩
  | succ n ih =>
    intro m hlt
    obtain ⟨m', hrec, hmem, hframe⟩ := ih
      (((atomic_load_reserved h g.shared_counter m).2.write g.shared_counter
        ((m.mem g.shared_counter + 1) % WORD)).drop h)
      (by simp only [drop_mem, write_mem_same]; exact Nat.mod_lt _ (by decide))
    refine ⟨m', ?_, ?_, ?_⟩
    · simp only [lock_free_loop, incr_alone, hrec]
    · rw [hmem]
      simp only [drop_mem, write_mem_same, WORD]
      omega
    · intro a ha
      rw [hframe a ha]
      simp [ha, atomic_load_reserved]

/-- Function `demonstrate_spinlock` from a free lock. -/
theorem demonstrate_spinlock_spec (g : AtomicGlobals) (fuel : Nat) (m : Machine)
    (hne : g.shared_counter ≠ g.lock_variable) (hfree : m.mem g.lock_variable = 0) :
    ∃ m', demonstrate_spinlock g (fuel + 1) m = some m' ∧
      m'.mem g.shared_counter = (m.mem g.shared_counter + 1) % WORD ∧
      m'.mem g.lock_variable = 0 := by
  have hacq := acquire_lock_free g.lock_variable fuel [] m hfree rfl
  simp only [List.headD_nil, interfere_nil] at hacq
  have hrun : demonstrate_spinlock g (fuel + 1) m =
      some (release_lock g.lock_variable
        ((m.write g.lock_variable 1).write g.shared_counter
          (((m.write g.lock_variable 1).mem g.shared_counter + 1) % WORD))) := by
    simp only [demonstrate_spinlock, hacq]
  refine ⟨_, hrun, ?_, ?_⟩
  · simp [release_lock, atomic_swap, hne, WORD]
  · simp [release_lock, atomic_swap, WORD]

/-! ## The counters of the mutex demo -/

/-- A critical section keeps the equation between the counters modulo
`2 ^ 32`. -/
theorem agree_mod_step (S A B S' A' B' : Nat) (hS : S' = (S + 1) % 2 ^ 32)
    (hAB : (A' = (A + 1) % 2 ^ 32 ∧ B' = B) ∨ (B' = (B + 1) % 2 ^ 32 ∧ A' = A))
    (hinv : S % 2 ^ 32 = (A + B) % 2 ^ 32) : S' % 2 ^ 32 = (A' + B') % 2 ^ 32 := by
  rcases hAB with ⟨hA, hB⟩ | ⟨hB, hA⟩ <;> subst hS hA hB <;> omega

/-- A critical section keeps the equation between the counters read as `int`
when no counter is at `INT_MAX`. -/
theorem agree_int_step (S A B S' A' B' : Nat) (hS32 : S < 2 ^ 32) (hA32 : A < 2 ^ 32)
    (hB32 : B < 2 ^ 32) (hS : S' = (S + 1) % 2 ^ 32)
    (hAB : (A' = (A + 1) % 2 ^ 32 ∧ B' = B) ∨ (B' = (B + 1) % 2 ^ 32 ∧ A' = A))
    (hinv : toInt32 S = toInt32 A + toInt32 B)
    (hSmax : toInt32 S < 2 ^ 31 - 1) (hAmax : toInt32 A < 2 ^ 31 - 1)
    (hBmax : toInt32 B < 2 ^ 31 - 1) :
    toInt32 S' = toInt32 A' + toInt32 B' := by
  have hstep : ∀ x : Nat, x < 2 ^ 32 → toInt32 x < 2 ^ 31 - 1 →
      toInt32 ((x + 1) % 2 ^ 32) = toInt32 x + 1 := by
    intro x hx hmax
    have := toInt32_add x 1 hx (by push_cast; omega)
    simpa using this
  rcases hAB with ⟨hA, hB⟩ | ⟨hB, hA⟩
  · rw [hS, hA, hB, hstep S hS32 hSmax, hstep A hA32 hAmax, hinv]; ring
  · rw [hS, hA, hB, hstep S hS32 hSmax, hstep B hB32 hBmax, hinv]; ring

/-! ## Theorems -/

/-- C1: for every 32-bit word `v` held at `loc` and every 32-bit operand `x`,
`atomic_add`, `atomic_swap`, `atomic_and` and `atomic_or` each return `v` and
leave `loc` holding `(v + x) mod 2^32`, `x`, `v AND x` and `v OR x`. -/
theorem C1_fetch_modify (m : Machine) (loc v x : Nat)
    (hv : m.mem loc = v) (hv32 : v < 2 ^ 32) (hx32 : x < 2 ^ 32) :
    ((atomic_add loc x m).1 = v ∧ (atomic_add loc x m).2.mem loc = (v + x) % 2 ^ 32) ∧
    ((atomic_swap loc x m).1 = v ∧ (atomic_swap loc x m).2.mem loc = x) ∧
    ((atomic_and loc x m).1 = v ∧ (atomic_and loc x m).2.mem loc = v &&& x) ∧
    ((atomic_or loc x m).1 = v ∧ (atomic_or loc x m).2.mem loc = v ||| x) := by
  have hW : WORD = 2 ^ 32 := rfl
  refine ⟨⟨hv, ?_⟩, ⟨hv, ?_⟩, ⟨hv, ?_⟩, ⟨hv, ?_⟩⟩
  · simp [atomic_add, hv, hW]
  · simp only [atomic_swap, write_mem_same]
    exact Nat.mod_eq_of_lt (hW ▸ hx32)
  · simp only [atomic_and, write_mem_same, hv]
    exact Nat.mod_eq_of_lt (word_and_lt v x (hW ▸ hv32))
  · simp only [atomic_or, write_mem_same, hv]
    exact Nat.mod_eq_of_lt (word_or_lt v x (hW ▸ hv32) (hW ▸ hx32))

/-- C1, instance: address 0 holds 7 and the operand is 5. -/
theorem C1_fetch_modify_witness :
    ((atomic_add 0 5 (Machine.poke 0 7)).1 = 7 ∧
      (atomic_add 0 5 (Machine.poke 0 7)).2.mem 0 = (7 + 5) % 2 ^ 32) ∧
    ((atomic_swap 0 5 (Machine.poke 0 7)).1 = 7 ∧
      (atomic_swap 0 5 (Machine.poke 0 7)).2.mem 0 = 5) ∧
    ((atomic_and 0 5 (Machine.poke 0 7)).1 = 7 ∧
      (atomic_and 0 5 (Machine.poke 0 7)).2.mem 0 = 7 &&& 5) ∧
    ((atomic_or 0 5 (Machine.poke 0 7)).1 = 7 ∧
      (atomic_or 0 5 (Machine.poke 0 7)).2.mem 0 = 7 ||| 5) :=
  C1_fetch_modify (Machine.poke 0 7) 0 7 5 (by decide) (by decide) (by decide)

/-- C2: after `k` passes whose `sc.w` fails followed by one whose `sc.w`
succeeds, `atomic_increment_lr_sc` has not returned after `k` passes and
returns after exactly `k + 1`, with the counter equal to the word read by the
last `lr.w` plus one (mod `2^32`); every other word is as the other parties
left it and the last word they left in the counter is the one the last `lr.w`
read, so the call adds exactly one; with nobody interfering the call returns
after one pass with the entry value plus one. -/
theorem C2_lr_sc_increment (h counter : Nat) (m : Machine)
    (fails : List (List Ev × List Ev)) (ok : List Ev × List Ev)
    (rest : List (List Ev × List Ev)) (extra : Nat)
    (hfail : ∀ g ∈ fails, g.2.any (Ev.kills h counter) = true)
    (hok : ok.2.any (Ev.kills h counter) = false) :
    (atomic_increment_lr_sc h counter fails.length (fails ++ ok :: rest) m).done = false ∧
    (∃ m', atomic_increment_lr_sc h counter (fails.length + 1 + extra) (fails ++ ok :: rest) m
          = Outcome.returned m'
              ((interfere ok.1 (interfere (gapEvents fails) m)).mem counter)
              (fails.length + 1) ∧
        m'.mem counter
          = ((interfere ok.1 (interfere (gapEvents fails) m)).mem counter + 1) % 2 ^ 32 ∧
        (∀ a, a ≠ counter → m'.mem a = (interfere (gapEvents (fails ++ [ok])) m).mem a) ∧
        m'.mem counter
          = ((interfere (gapEvents (fails ++ [ok])) m).mem counter + 1) % 2 ^ 32) ∧
    (∃ m', atomic_increment_lr_sc h counter (1 + extra) [] m
          = Outcome.returned m' (m.mem counter) 1 ∧
        m'.mem counter = (m.mem counter + 1) % 2 ^ 32) := by
  obtain ⟨hspin, m', hret, hc, hframe⟩ :=
    incr_rounds h counter ok rest extra hok fails m m hfail rfl
  have hlast : (interfere (gapEvents (fails ++ [ok])) m).mem counter
      = (interfere ok.1 (interfere (gapEvents fails) m)).mem counter := by
    rw [gapEvents_append]
    simp only [gapEvents, List.append_nil, interfere_append]
    exact interfere_mem_kept ok.2 _ counter (writesTo_of_not_kills ok.2 h counter hok)
  refine ⟨hspin, ⟨m', hret, hc, hframe, ?_⟩, ?_⟩
  · rw [hlast]; exact hc
  · rw [Nat.add_comm 1 extra, incr_alone]
    exact ⟨_, rfl, by simp [WORD]⟩

/-- C2, instance: hart 0 increments the counter at address 0 holding 41; a
write of 9 by another party makes the first `sc.w` fail, the second pass
succeeds and leaves 10. -/
theorem C2_lr_sc_increment_witness :
    (atomic_increment_lr_sc 0 0 1 [([], [Ev.write 0 9]), ([], [])] (Machine.poke 0 41)).done
      = false ∧
    (∃ m', atomic_increment_lr_sc 0 0 2 [([], [Ev.write 0 9]), ([], [])] (Machine.poke 0 41)
        = Outcome.returned m' 9 2 ∧ m'.mem 0 = 10) := by
  have hC := C2_lr_sc_increment 0 0 (Machine.poke 0 41) [([], [Ev.write 0 9])] ([], []) [] 0
    (by decide) (by decide)
  obtain ⟨hspin, ⟨m', hret, hc, _, _⟩, _⟩ := hC
  exact ⟨hspin, m', hret, hc⟩

/-- C3, refuted as stated: one context incrementing once a counter that holds
`2^32 - 1` finishes with the counter at 0, not at `V + N * K = 2^32`. -/
theorem C3_counterexample :
    (IncSys.exec 0 (IncSys.init (Machine.poke 0 (2 ^ 32 - 1)) 1 1)
      [Act.run 0, Act.run 0]).finished 1 ∧
    (IncSys.exec 0 (IncSys.init (Machine.poke 0 (2 ^ 32 - 1)) 1 1)
      [Act.run 0, Act.run 0]).m.mem 0 = 0 ∧
    (IncSys.exec 0 (IncSys.init (Machine.poke 0 (2 ^ 32 - 1)) 1 1)
      [Act.run 0, Act.run 0]).m.mem 0 ≠ (2 ^ 32 - 1) + 1 * 1 := by
  decide

/-- C3, amended: `N` contexts each call `atomic_increment_lr_sc` `K` times on
a counter holding the 32-bit word `V`.  For every interleaving of their
`lr.w` / `sc.w` steps (and of spurious reservation losses) after which all of
them are done, the counter holds `(V + N * K) mod 2^32`, hence exactly
`V + N * K` when that is below `2^32`; and some interleaving does complete
all the calls. -/
theorem C3_lock_free_counter_mod (counter N K V : Nat) (m : Machine)
    (hV : m.mem counter = V) (hV32 : V < 2 ^ 32) (sched : List Act)
    (hfin : (IncSys.exec counter (IncSys.init m N K) sched).finished N) :
    (IncSys.exec counter (IncSys.init m N K) sched).m.mem counter = (V + N * K) % 2 ^ 32 ∧
    (V + N * K < 2 ^ 32 →
      (IncSys.exec counter (IncSys.init m N K) sched).m.mem counter = V + N * K) ∧
    (∃ complete : List Act,
      (IncSys.exec counter (IncSys.init m N K) complete).finished N) := by
  have hfinal := inc_final counter N K m (by rw [hV]; exact hV32) sched hfin
  rw [hV] at hfinal
  refine ⟨hfinal, fun hlt => ?_, ⟨seqSchedule N K, seq_finished counter N K m⟩⟩
  rw [hfinal]
  exact Nat.mod_eq_of_lt hlt

/-- C3 amended, instance: two contexts, one call each, counter at 5; both read
5, context 0 writes 6, the `sc.w` of context 1 fails and its retry writes 7. -/
theorem C3_lock_free_counter_mod_witness :
    (IncSys.exec 0 (IncSys.init (Machine.poke 0 5) 2 1)
      [Act.run 0, Act.run 1, Act.run 0, Act.run 1, Act.run 1, Act.run 1]).finished 2 ∧
    (IncSys.exec 0 (IncSys.init (Machine.poke 0 5) 2 1)
      [Act.run 0, Act.run 1, Act.run 0, Act.run 1, Act.run 1, Act.run 1]).m.mem 0 = 5 + 2 * 1 :=
  ⟨by decide,
    (C3_lock_free_counter_mod 0 2 1 5 (Machine.poke 0 5) (by decide) (by decide)
      [Act.run 0, Act.run 1, Act.run 0, Act.run 1, Act.run 1, Act.run 1] (by decide)).2.1
      (by decide)⟩

/-- C4: any number of contexts repeatedly run acquire, critical section,
release on one lock, each through `spinlock_acquire` / `spinlock_release` or
through `acquire_lock` / `release_lock`; the critical sections, of any number
of steps, leave the lock word alone.  In every state reached from the initial
one (every context about to acquire, the lock word free or not) by any
schedule, when a context is between a returned acquire and its matching
release, no other context is. -/
theorem C4_mutual_exclusion (impl : Nat → LockImpl)
    (cs : Nat → Machine → Machine × Bool) (lock : Nat) (m : Machine)
    (hcs : LockFrame cs lock) (sched : List Act) (i j : Nat)
    (hi : (LockSys.exec impl cs lock (LockSys.init m) sched).holds i) (hne : j ≠ i) :
    ¬ (LockSys.exec impl cs lock (LockSys.init m) sched).holds j := by
  obtain ⟨hL1, _, _⟩ := lock_exec_inv impl cs lock hcs sched _ (lock_init_inv lock m)
  exact fun hj => hne (hL1 j i hj hi)

/-- C4, instances on a free lock at address 0 whose critical section bumps
the word at address 1.  With LR/SC, contexts 0 and 1 both read 0, the `sc.w`
of context 0 succeeds and that of context 1 fails; with swap, context 0 swaps
first and context 1 reads 1.  Context 0 holds the lock, context 1 does not. -/
theorem C4_mutual_exclusion_witness :
    ((LockSys.exec (fun _ => LockImpl.lrsc) (fun _ m => (m.write 1 (m.mem 1 + 1), true)) 0
        (LockSys.init Machine.zero) [Act.run 0, Act.run 1, Act.run 0, Act.run 1]).holds 0 ∧
      ¬ (LockSys.exec (fun _ => LockImpl.lrsc) (fun _ m => (m.write 1 (m.mem 1 + 1), true)) 0
        (LockSys.init Machine.zero) [Act.run 0, Act.run 1, Act.run 0, Act.run 1]).holds 1) ∧
    ((LockSys.exec (fun _ => LockImpl.swap) (fun _ m => (m.write 1 (m.mem 1 + 1), true)) 0
        (LockSys.init Machine.zero) [Act.run 0, Act.run 1]).holds 0 ∧
      ¬ (LockSys.exec (fun _ => LockImpl.swap) (fun _ m => (m.write 1 (m.mem 1 + 1), true)) 0
        (LockSys.init Machine.zero) [Act.run 0, Act.run 1]).holds 1) :=
  ⟨⟨by decide,
      C4_mutual_exclusion (fun _ => LockImpl.lrsc) (fun _ m => (m.write 1 (m.mem 1 + 1), true)) 0
        Machine.zero (frame_write 1 0 (fun _ m => m.mem 1 + 1) (fun _ _ => true) (by decide))
        [Act.run 0, Act.run 1, Act.run 0, Act.run 1] 0 1 (by decide) (by decide)⟩,
    ⟨by decide,
      C4_mutual_exclusion (fun _ => LockImpl.swap) (fun _ m => (m.write 1 (m.mem 1 + 1), true)) 0
        Machine.zero (frame_write 1 0 (fun _ m => m.mem 1 + 1) (fun _ _ => true) (by decide))
        [Act.run 0, Act.run 1] 0 1 (by decide) (by decide)⟩⟩

/-- C5, refuted as stated: with `shared_counter` at `INT_MAX` one iteration
leaves the `int` at `INT_MIN`, not at the entry value plus one. -/
theorem C5_counterexample :
    (increment_shared_counter ⟨0, 1, 2, 3⟩ 0 1 1 1 (Machine.poke 1 (2 ^ 31 - 1))).map
        (fun r => toInt32 (r.1.mem 1)) = some (-2147483648) ∧
    toInt32 ((Machine.poke 1 (2 ^ 31 - 1)).mem 1) + 1 = 2147483648 := by
  decide

/-- C5, amended: in a single context, with the spinlock free at entry and for
`iterations >= 0`, `increment_shared_counter(thread_id, iterations)` returns
after exactly `iterations` critical sections with the spinlock free again and
`shared_counter` equal to the entry word plus `iterations` modulo `2^32`; read
as `int`, that is the entry value plus `iterations` whenever this sum does not
exceed `INT_MAX`.  After `main`, `shared_counter` is exactly 100000. -/
theorem C5_increment_shared_counter_wraps (g : Globals) (h fuel : Nat)
    (thread_id iterations : Int) (m m0 : Machine) (hd : g.Distinct)
    (hfree : m.mem g.spinlock = 0) (hs32 : m.mem g.shared_counter < 2 ^ 32)
    (h132 : m.mem g.thread1_iterations < 2 ^ 32) (h232 : m.mem g.thread2_iterations < 2 ^ 32)
    (hit : 0 ≤ iterations) :
    (∃ m' entries, increment_shared_counter g h (fuel + 1) thread_id iterations m
          = some (m', entries) ∧
        (entries : Int) = iterations ∧
        m'.mem g.spinlock = 0 ∧
        m'.mem g.shared_counter = (m.mem g.shared_counter + entries) % 2 ^ 32 ∧
        (toInt32 (m.mem g.shared_counter) + iterations < 2 ^ 31 →
          toInt32 (m'.mem g.shared_counter)
            = toInt32 (m.mem g.shared_counter) + iterations)) ∧
    (∃ m', MutexDemo.main g h (fuel + 1) m0 = some m' ∧
      m'.mem g.shared_counter = 100000 ∧ toInt32 (m'.mem g.shared_counter) = 100000) := by
  have hW : WORD = 2 ^ 32 := rfl
  obtain ⟨m', hrun, hf, hs, _, _⟩ :=
    increment_loop_spec g hd h fuel thread_id iterations.toNat m hfree
      (hW ▸ hs32) (hW ▸ h132) (hW ▸ h232)
  have hcast : (iterations.toNat : Int) = iterations := Int.toNat_of_nonneg hit
  obtain ⟨m1, hmain, _, hsh, _, _⟩ := main_spec g hd h fuel m0
  refine ⟨⟨m', iterations.toNat, hrun, hcast, hf, hW ▸ hs, fun hlt => ?_⟩,
    ⟨m1, hmain, hsh, by rw [hsh]; decide⟩⟩
  have key := toInt32_add (m.mem g.shared_counter) iterations.toNat hs32
    (by rw [hcast]; exact hlt)
  rw [hcast] at key
  rw [hs, hW]
  exact key

/-- C5 amended, instance: thread 7 runs 5 iterations from `shared_counter = 10`
on the layout spinlock 0, shared_counter 1, thread1_iterations 2,
thread2_iterations 3, and leaves 15. -/
theorem C5_increment_shared_counter_wraps_witness :
    ∃ m', increment_shared_counter ⟨0, 1, 2, 3⟩ 0 1 7 5 (Machine.poke 1 10) = some (m', 5) ∧
      m'.mem 0 = 0 ∧ toInt32 (m'.mem 1) = 15 := by
  obtain ⟨⟨m', entries, hrun, hent, hf, _, hint⟩, _⟩ :=
    C5_increment_shared_counter_wraps ⟨0, 1, 2, 3⟩ 0 0 7 5 (Machine.poke 1 10) Machine.zero
      (by decide) (by decide) (by decide) (by decide) (by decide) (by decide)
  have he : entries = 5 := by exact_mod_cast hent
  subst he
  exact ⟨m', hrun, hf, hint (by decide)⟩

/-- C6: when, between a hart's `lr.w` on `loc` and its `sc.w`, another party
writes the 32-bit word `w` to `loc` (the last such write before the `sc.w`),
`atomic_store_conditional` returns non-zero and `loc` still holds `w`, not the
offered value. -/
theorem C6_conditional_write_detects (h loc x w : Nat) (m : Machine) (pre post : List Ev)
    (hw32 : w < 2 ^ 32) (hpost : post.any (Ev.writesTo loc) = false) :
    (atomic_store_conditional h loc x
      (interfere (pre ++ Ev.write loc w :: post) (atomic_load_reserved h loc m).2)).1 ≠ 0 ∧
    (atomic_store_conditional h loc x
      (interfere (pre ++ Ev.write loc w :: post) (atomic_load_reserved h loc m).2)).2.mem loc
      = w := by
  have hk : (pre ++ Ev.write loc w :: post).any (Ev.kills h loc) = true := by
    simp [Ev.kills]
  have hr := interfere_resv_killed _ (atomic_load_reserved h loc m).2 h loc hk
  have hmem : (interfere (pre ++ Ev.write loc w :: post)
      (atomic_load_reserved h loc m).2).mem loc = w := by
    rw [interfere_append, interfere_cons, interfere_mem_kept post _ loc hpost]
    simp only [Ev.apply, write_mem_same]
    exact Nat.mod_eq_of_lt hw32
  simp only [atomic_store_conditional, if_neg hr]
  exact ⟨by decide, by simpa using hmem⟩

/-- C6, instance: hart 0 reserves address 0 (holding 5), another party writes
7, the `sc.w` of 6 fails and the word is 7. -/
theorem C6_conditional_write_detects_witness :
    (atomic_store_conditional 0 0 6
      (interfere ([] ++ Ev.write 0 7 :: [])
        (atomic_load_reserved 0 0 (Machine.poke 0 5)).2)).1 ≠ 0 ∧
    (atomic_store_conditional 0 0 6
      (interfere ([] ++ Ev.write 0 7 :: [])
        (atomic_load_reserved 0 0 (Machine.poke 0 5)).2)).2.mem 0 = 7 :=
  C6_conditional_write_detects 0 0 6 7 (Machine.poke 0 5) [] [] (by decide) (by decide)

/-- C7: when `atomic_store_conditional` returns non-zero, memory (so the
addressed word) is exactly as before the call; when it returns 0, the
addressed word holds the supplied 32-bit value. -/
theorem C7_store_conditional_result (h addr value : Nat) (m : Machine)
    (hv32 : value < 2 ^ 32) :
    ((atomic_store_conditional h addr value m).1 ≠ 0 →
      (atomic_store_conditional h addr value m).2.mem = m.mem) ∧
    ((atomic_store_conditional h addr value m).1 = 0 →
      (atomic_store_conditional h addr value m).2.mem addr = value) := by
  by_cases hr : m.resv h = some addr
  · simp only [atomic_store_conditional, if_pos hr]
    refine ⟨fun hne => absurd rfl hne, fun _ => ?_⟩
    simp only [drop_mem, write_mem_same]
    exact Nat.mod_eq_of_lt hv32
  · simp only [atomic_store_conditional, if_neg hr]
    exact ⟨fun _ => rfl, fun h0 => absurd h0 (by decide)⟩

/-- C7, instance: without a reservation the `sc.w` of 6 fails and leaves the 5
at address 0; right after the `lr.w` it succeeds and leaves 6. -/
theorem C7_store_conditional_result_witness :
    (atomic_store_conditional 0 0 6 (Machine.poke 0 5)).2.mem 0 = 5 ∧
    (atomic_store_conditional 0 0 6 (atomic_load_reserved 0 0 (Machine.poke 0 5)).2).2.mem 0
      = 6 :=
  ⟨congrFun ((C7_store_conditional_result 0 0 6 (Machine.poke 0 5) (by decide)).1
      (by decide)) 0,
    (C7_store_conditional_result 0 0 6 (atomic_load_reserved 0 0 (Machine.poke 0 5)).2
      (by decide)).2 (by decide)⟩

/-- C8, refuted as stated: from the 32-bit value `2^32 - 1` a completed
`atomic_increment_lr_sc` leaves 0, which is smaller. -/
theorem C8_counterexample :
    (atomic_increment_lr_sc 0 0 1 [] (Machine.poke 0 (2 ^ 32 - 1))).done = true ∧
    (atomic_increment_lr_sc 0 0 1 [] (Machine.poke 0 (2 ^ 32 - 1))).machine.mem 0 = 0 ∧
    ¬ ((Machine.poke 0 (2 ^ 32 - 1)).mem 0
        ≤ (atomic_increment_lr_sc 0 0 1 [] (Machine.poke 0 (2 ^ 32 - 1))).machine.mem 0) := by
  decide

/-- C8, amended: a call of `atomic_increment_lr_sc` that returns leaves the
counter at `seen + 1` mod `2^32`, where `seen` is the word its last `lr.w`
read; so for every 32-bit `seen` below `2^32 - 1` the counter ends strictly
above `seen`, and for `seen = 2^32 - 1` it wraps to 0.  With nobody
interfering the call returns after one pass and `seen` is the entry value. -/
theorem C8_increment_monotone_below_max (h counter : Nat) :
    (∀ (fuel : Nat) (env : List (List Ev × List Ev)) (m m' : Machine) (seen p : Nat),
      atomic_increment_lr_sc h counter fuel env m = Outcome.returned m' seen p →
      (seen < 2 ^ 32 - 1 → m'.mem counter = seen + 1 ∧ seen < m'.mem counter) ∧
      (seen = 2 ^ 32 - 1 → m'.mem counter = 0)) ∧
    (∀ (fuel : Nat) (m : Machine), ∃ m',
      atomic_increment_lr_sc h counter (fuel + 1) [] m
        = Outcome.returned m' (m.mem counter) 1) := by
  refine ⟨?_, fun fuel m => ⟨_, incr_alone h counter fuel m⟩⟩
  intro fuel env m m' seen p hret
  have hc := incr_returned h counter fuel env m m' seen p hret
  simp only [WORD] at hc
  refine ⟨fun hlt => ?_, fun heq => ?_⟩
  · have : (seen + 1) % 2 ^ 32 = seen + 1 := Nat.mod_eq_of_lt (by omega)
    rw [hc, this]
    exact ⟨rfl, Nat.lt_succ_self seen⟩
  · rw [hc, heq]; decide

/-- C8 amended, instance: from 41 the call returns with 42. -/
theorem C8_increment_monotone_below_max_witness :
    (41 < 2 ^ 32 - 1) ∧
    ((((atomic_load_reserved 0 0 (Machine.poke 0 41)).2.write 0 ((41 + 1) % WORD)).drop 0).mem 0
      = 41 + 1) :=
  ⟨by decide,
    (((C8_increment_monotone_below_max 0 0).1 1 [] (Machine.poke 0 41) _ 41 1
      (incr_alone 0 0 0 (Machine.poke 0 41))).1 (by decide)).1⟩

/-- C9, refuted as stated.  On a lock word holding 2, one pass of
`acquire_lock` overwrites the word with 1 while one pass of
`spinlock_acquire` leaves the 2.  On a free lock, when another party writes
(here 0) the swap of `acquire_lock` still takes the lock in its first pass,
while a write falling between the `lr.w` and the `sc.w` of
`spinlock_acquire` makes its first pass fail. -/
theorem C9_counterexample :
    ((acquire_lock 0 1 [] (Machine.poke 0 2)).machine.mem 0 = 1 ∧
      (spinlock_acquire 0 0 1 [] (Machine.poke 0 2)).machine.mem 0 = 2) ∧
    ((acquire_lock 0 1 [[Ev.write 0 0]] (Machine.poke 0 0)).done = true ∧
      (spinlock_acquire 0 0 1 [([], [Ev.write 0 0])] (Machine.poke 0 0)).done = false) := by
  decide

/-- C9, amended: when the lock word holds 0 or 1 at entry, the other parties
write only 0 or 1 to it, and nothing happens between the `lr.w` and the
`sc.w` of a pass, `acquire_lock` and `spinlock_acquire` agree after every
number of passes: both are still spinning or both have returned, after the
same number of passes, with the same memory. -/
theorem C9_acquire_agree_on_binary_lock (h lock fuel : Nat) (env : List (List Ev))
    (m : Machine) (hbin : m.mem lock ≤ 1)
    (henv : ∀ evs ∈ env, evs.all (Ev.binaryOn lock) = true) :
    (acquire_lock lock fuel env m).done
        = (spinlock_acquire h lock fuel (quietGaps env) m).done ∧
    (acquire_lock lock fuel env m).passes
        = (spinlock_acquire h lock fuel (quietGaps env) m).passes ∧
    (acquire_lock lock fuel env m).machine.mem
        = (spinlock_acquire h lock fuel (quietGaps env) m).machine.mem :=
  acquire_agree h lock fuel env m m rfl hbin henv

/-- C9 amended, instance: the lock at address 0 is held (1) and released by
its holder before the second pass; both loops return in the second pass. -/
theorem C9_acquire_agree_on_binary_lock_witness :
    (acquire_lock 0 2 [[], [Ev.write 0 0]] (Machine.poke 0 1)).passes = 2 ∧
    ((acquire_lock 0 2 [[], [Ev.write 0 0]] (Machine.poke 0 1)).done
        = (spinlock_acquire 0 0 2 (quietGaps [[], [Ev.write 0 0]]) (Machine.poke 0 1)).done ∧
      (acquire_lock 0 2 [[], [Ev.write 0 0]] (Machine.poke 0 1)).passes
        = (spinlock_acquire 0 0 2 (quietGaps [[], [Ev.write 0 0]]) (Machine.poke 0 1)).passes ∧
      (acquire_lock 0 2 [[], [Ev.write 0 0]] (Machine.poke 0 1)).machine.mem
        = (spinlock_acquire 0 0 2 (quietGaps [[], [Ev.write 0 0]])
            (Machine.poke 0 1)).machine.mem) :=
  ⟨by decide,
    C9_acquire_agree_on_binary_lock 0 0 2 [[], [Ev.write 0 0]] (Machine.poke 0 1)
      (by decide) (by decide)⟩

/-- C10: every call of `acquire_lock` or `spinlock_acquire` that returns does
so with the lock word equal to 1, and the last word it read from the lock
before its successful write was 0; on a free lock, with no write to the lock
before the first read and (for LR/SC) the reservation intact at the `sc.w`,
the call returns after a single pass having read 0 and written 1. -/
theorem C10_acquire_returns_held (h lock : Nat) :
    (∀ (fuel : Nat) (env : List (List Ev)) (m m' : Machine) (seen p : Nat),
      acquire_lock lock fuel env m = Outcome.returned m' seen p →
      m'.mem lock = 1 ∧ seen = 0) ∧
    (∀ (fuel : Nat) (env : List (List Ev × List Ev)) (m m' : Machine) (seen p : Nat),
      spinlock_acquire h lock fuel env m = Outcome.returned m' seen p →
      m'.mem lock = 1 ∧ seen = 0) ∧
    (∀ (fuel : Nat) (env : List (List Ev)) (m : Machine),
      m.mem lock = 0 → (env.headD []).any (Ev.writesTo lock) = false →
      ∃ m', acquire_lock lock (fuel + 1) env m = Outcome.returned m' 0 1 ∧
        m'.mem lock = 1) ∧
    (∀ (fuel : Nat) (env : List (List Ev × List Ev)) (m : Machine),
      m.mem lock = 0 → (env.headD ([], [])).1.any (Ev.writesTo lock) = false →
      (env.headD ([], [])).2.any (Ev.kills h lock) = false →
      ∃ m', spinlock_acquire h lock (fuel + 1) env m = Outcome.returned m' 0 1 ∧
        m'.mem lock = 1) := by
  refine ⟨acquire_lock_returned lock, spinlock_acquire_returned h lock, ?_, ?_⟩
  · intro fuel env m hfree hq
    exact ⟨_, acquire_lock_free lock fuel env m hfree hq, by simp [one_mod_word]⟩
  · intro fuel env m hfree hq1 hq2
    exact spinlock_acquire_quiet h lock fuel env m hfree hq1 hq2

/-- C10, instance: on the free lock at address 0 with nobody interfering,
both acquires return after one pass with the lock word at 1, having read 0. -/
theorem C10_acquire_returns_held_witness :
    (∃ m', acquire_lock 0 1 [] Machine.zero = Outcome.returned m' 0 1 ∧ m'.mem 0 = 1) ∧
    (∃ m', spinlock_acquire 0 0 1 [] Machine.zero = Outcome.returned m' 0 1 ∧
      m'.mem 0 = 1) ∧
    ((Machine.zero.write 0 1).mem 0 = 1 ∧ (0 : Nat) = 0) ∧
    ((((atomic_load_reserved 0 0 Machine.zero).2.write 0 1).drop 0).mem 0 = 1 ∧
      (0 : Nat) = 0) :=
  ⟨(C10_acquire_returns_held 0 0).2.2.1 0 [] Machine.zero (by decide) (by decide),
    (C10_acquire_returns_held 0 0).2.2.2 0 [] Machine.zero (by decide) (by decide)
      (by decide),
    (C10_acquire_returns_held 0 0).1 1 [] Machine.zero (Machine.zero.write 0 1) 0 1
      (acquire_lock_free 0 0 [] Machine.zero rfl rfl),
    (C10_acquire_returns_held 0 0).2.1 1 [] Machine.zero
      (((atomic_load_reserved 0 0 Machine.zero).2.write 0 1).drop 0) 0 1
      (spinlock_acquire_free 0 0 0 Machine.zero rfl)⟩

/-- C11: whatever the lock word holds, `release_lock` and `spinlock_release`
each leave it at 0 and leave every other word as it was: memory after the
call is memory before with 0 stored at `lock`. -/
theorem C11_release_unconditional (lock : Nat) (m : Machine) :
    ((release_lock lock m).mem lock = 0 ∧
      (release_lock lock m).mem = Function.update m.mem lock 0) ∧
    ((spinlock_release lock m).mem lock = 0 ∧
      (spinlock_release lock m).mem = Function.update m.mem lock 0) := by
  have hrel : (release_lock lock m).mem = Function.update m.mem lock 0 := by
    simp [release_lock, atomic_swap, Machine.write, zero_mod_word]
  have hspin : (spinlock_release lock m).mem = Function.update m.mem lock 0 := by
    simp [spinlock_release, Machine.write, zero_mod_word]
  exact ⟨⟨by rw [hrel]; simp, hrel⟩, ⟨by rw [hspin]; simp, hspin⟩⟩

/-- C12: on a lock word that holds 1 and that no other party writes, neither
`acquire_lock` nor `spinlock_acquire` has returned after `n` passes, for every
`n`, and the lock word is still 1. -/
theorem C12_acquire_not_reentrant (h lock n : Nat) (envSwap : List (List Ev))
    (envLrsc : List (List Ev × List Ev)) (m : Machine) (hheld : m.mem lock = 1)
    (hSwap : ∀ evs ∈ envSwap, evs.any (Ev.writesTo lock) = false)
    (hLrsc : ∀ g ∈ envLrsc, g.1.any (Ev.writesTo lock) = false ∧
      g.2.any (Ev.writesTo lock) = false) :
    (∃ m', acquire_lock lock n envSwap m = Outcome.spinning m' ∧ m'.mem lock = 1) ∧
    (∃ m', spinlock_acquire h lock n envLrsc m = Outcome.spinning m' ∧ m'.mem lock = 1) :=
  ⟨acquire_lock_held lock n envSwap m hheld hSwap,
    spinlock_acquire_held h lock n envLrsc m hheld hLrsc⟩

/-- C12, instance: the lock at address 0 holds 1; after 3 passes, with another
party writing the word at address 1 meanwhile, both acquires are still
spinning and the lock word is 1. -/
theorem C12_acquire_not_reentrant_witness :
    (∃ m', acquire_lock 0 3 [[Ev.write 1 9]] (Machine.poke 0 1) = Outcome.spinning m' ∧
      m'.mem 0 = 1) ∧
    (∃ m', spinlock_acquire 0 0 3 [([Ev.write 1 9], [])] (Machine.poke 0 1)
        = Outcome.spinning m' ∧ m'.mem 0 = 1) :=
  C12_acquire_not_reentrant 0 0 3 [[Ev.write 1 9]] [([Ev.write 1 9], [])] (Machine.poke 0 1)
    (by decide) (by decide) (by decide)

/-- C13, refuted as stated: from the 32-bit value `V = 2^32 - 1` no
interleaving of two `non_atomic_increment` calls ends with the counter at
`V + 1 = 2^32`; the both-read-then-both-write interleaving ends at 0. -/
theorem C13_counterexample :
    (¬ ∃ sched : List Act,
      (RacySys.exec 0 (RacySys.init (Machine.poke 0 (2 ^ 32 - 1)) 2) sched).finished 2 ∧
      (RacySys.exec 0 (RacySys.init (Machine.poke 0 (2 ^ 32 - 1)) 2) sched).m.mem 0
        = (2 ^ 32 - 1) + 1) ∧
    (RacySys.exec 0 (RacySys.init (Machine.poke 0 (2 ^ 32 - 1)) 2) lostUpdate).m.mem 0 = 0 := by
  refine ⟨?_, by decide⟩
  rintro ⟨sched, _, heq⟩
  have hlt := racy_exec_lt 0 sched (RacySys.init (Machine.poke 0 (2 ^ 32 - 1)) 2) (by decide)
  rw [heq] at hlt
  exact absurd hlt (by decide)

/-- C13, amended: for every 32-bit counter value `V` there is an interleaving
of the read, modify and write steps of two concurrent `non_atomic_increment`
calls after which both have returned and the counter holds `(V + 1) mod 2^32`,
which differs from the `(V + 2) mod 2^32` that the two calls produce when run
one after the other; when `V + 2 < 2^32` the counter holds `V + 1 < V + 2`. -/
theorem C13_non_atomic_loses_update (counter V : Nat) (m : Machine)
    (hV : m.mem counter = V) (hV32 : V < 2 ^ 32) :
    (∃ sched : List Act,
      (RacySys.exec counter (RacySys.init m 2) sched).finished 2 ∧
      (RacySys.exec counter (RacySys.init m 2) sched).m.mem counter = (V + 1) % 2 ^ 32 ∧
      (V + 1) % 2 ^ 32 ≠ (V + 2) % 2 ^ 32 ∧
      (V + 2 < 2 ^ 32 →
        (RacySys.exec counter (RacySys.init m 2) sched).m.mem counter = V + 1 ∧
        V + 1 < V + 2)) ∧
    ((RacySys.exec counter (RacySys.init m 2) oneAfterTheOther).finished 2 ∧
      (RacySys.exec counter (RacySys.init m 2) oneAfterTheOther).m.mem counter
        = (V + 2) % 2 ^ 32 ∧
      (non_atomic_increment counter (non_atomic_increment counter m)).mem counter
        = (V + 2) % 2 ^ 32) := by
  have hW : WORD = 2 ^ 32 := rfl
  obtain ⟨hfin, hmem⟩ := lost_update_run counter m
  obtain ⟨hfin2, hmem2⟩ := one_after_the_other_run counter m
  rw [hV, hW] at hmem hmem2
  refine ⟨⟨lostUpdate, hfin, hmem, by omega, fun hlt => ⟨?_, by omega⟩⟩, hfin2, hmem2, ?_⟩
  · rw [hmem]; exact Nat.mod_eq_of_lt (by omega)
  · simp only [non_atomic_increment, write_mem_same, hV, hW]
    omega

/-- C13 amended, instance: from 5 the lost-update interleaving ends at 6 and
the sequential one at 7. -/
theorem C13_non_atomic_loses_update_witness :
    (∃ sched : List Act,
      (RacySys.exec 0 (RacySys.init (Machine.poke 0 5) 2) sched).finished 2 ∧
      (RacySys.exec 0 (RacySys.init (Machine.poke 0 5) 2) sched).m.mem 0 = 5 + 1) ∧
    (RacySys.exec 0 (RacySys.init (Machine.poke 0 5) 2) oneAfterTheOther).m.mem 0
      = (5 + 2) % 2 ^ 32 := by
  obtain ⟨⟨sched, hfin, _, _, hex⟩, _, hseq, _⟩ :=
    C13_non_atomic_loses_update 0 5 (Machine.poke 0 5) (by decide) (by decide)
  exact ⟨⟨sched, hfin, (hex (by decide)).1⟩, hseq⟩

/-- C14: run in a single context, `main` of the atomic demo returns with
`shared_counter = 0x8000006F` (2147483759) and `lock_variable = 0`: the four
fetch-and-modify calls return 0, 5, 100, 100 and leave `0x80000064`, the ten
lock-free increments bring it to `0x8000006E`, and the spinlock-protected
increment adds 1. -/
theorem C14_atomic_demo_main (g : AtomicGlobals) (h fuel : Nat) (m : Machine)
    (hne : g.shared_counter ≠ g.lock_variable) :
    ∃ m1 m2,
      (demonstrate_atomic_operations g
        ((m.write g.shared_counter 0).write g.lock_variable 0)).1 = [0, 5, 100, 100] ∧
      (demonstrate_atomic_operations g
        ((m.write g.shared_counter 0).write g.lock_variable 0)).2.mem g.shared_counter
          = 0x80000064 ∧
      demonstrate_lock_free_increment g h (fuel + 1)
        (demonstrate_atomic_operations g
          ((m.write g.shared_counter 0).write g.lock_variable 0)).2 = some m1 ∧
      m1.mem g.shared_counter = 0x80000064 + 10 ∧
      demonstrate_spinlock g (fuel + 1) m1 = some m2 ∧
      m2.mem g.shared_counter = 0x80000064 + 10 + 1 ∧
      AtomicDemo.main g h (fuel + 1) m = some ([0, 5, 100, 100], m2) ∧
      m2.mem g.shared_counter = 0x8000006F ∧ m2.mem g.shared_counter = 2147483759 ∧
      m2.mem g.lock_variable = 0 := by
  have hne' : g.lock_variable ≠ g.shared_counter := fun e => hne e.symm
  have hinit : ((m.write g.shared_counter 0).write g.lock_variable 0).mem g.shared_counter
      = 0 := by
    simp [hne, WORD]
  have hlock0 : ((m.write g.shared_counter 0).write g.lock_variable 0).mem g.lock_variable
      = 0 := by
    simp [WORD]
  obtain ⟨hold, hops, hframe⟩ := demo_ops_spec g _ hinit
  obtain ⟨m1, hloop, hm1, hframe1⟩ := lock_free_loop_spec g h fuel 10
    (demonstrate_atomic_operations g
      ((m.write g.shared_counter 0).write g.lock_variable 0)).2
    (by rw [hops]; decide)
  have hlock1 : m1.mem g.lock_variable = 0 := by
    rw [hframe1 _ hne', hframe _ hne', hlock0]
  obtain ⟨m2, hspin, hm2, hlock2⟩ := demonstrate_spinlock_spec g fuel m1 hne hlock1
  rw [hops] at hm1
  have hv1 : m1.mem g.shared_counter = 0x80000064 + 10 := by rw [hm1]; decide
  have hv2 : m2.mem g.shared_counter = 0x80000064 + 10 + 1 := by rw [hm2, hv1]; decide
  refine ⟨m1, m2, hold, hops, hloop, hv1, hspin, hv2, ?_, hv2, hv2, hlock2⟩
  have hloop' : demonstrate_lock_free_increment g h (fuel + 1)
      (demonstrate_atomic_operations g
        ((m.write g.shared_counter 0).write g.lock_variable 0)).2 = some m1 := hloop
  simp only [AtomicDemo.main, hloop', hspin, hold]

/-- C14, instance: with `shared_counter` at address 0 (holding 77 before
`main` runs) and `lock_variable` at address 1, `main` ends with 2147483759 and
0. -/
theorem C14_atomic_demo_main_witness :
    ∃ m', AtomicDemo.main ⟨0, 1⟩ 0 1 (Machine.poke 0 77) = some ([0, 5, 100, 100], m') ∧
      m'.mem 0 = 2147483759 ∧ m'.mem 1 = 0 := by
  obtain ⟨_, m2, _, _, _, _, _, _, hmain, _, hv, hl⟩ :=
    C14_atomic_demo_main ⟨0, 1⟩ 0 0 (Machine.poke 0 77) (by decide)
  exact ⟨m2, hmain, hv, hl⟩

/-- C15, refuted as stated: with the spinlock free, `shared_counter = INT_MAX`,
`thread1_iterations = INT_MAX - 1` and `thread2_iterations = 1` the equation
holds; one critical section of thread 1 leaves `INT_MIN`, `INT_MAX` and 1,
for which it does not. -/
theorem C15_counterexample :
    countersAgree ⟨0, 1, 2, 3⟩ (Machine.ofList [0, 2 ^ 31 - 1, 2 ^ 31 - 2, 1]) ∧
    (critical_section ⟨0, 1, 2, 3⟩ 0 1 1 (Machine.ofList [0, 2 ^ 31 - 1, 2 ^ 31 - 2, 1])).map
      (fun m' => (toInt32 (m'.mem 1), toInt32 (m'.mem 2), toInt32 (m'.mem 3),
        decide (countersAgree ⟨0, 1, 2, 3⟩ m')))
      = some (-2147483648, 2147483647, 1, false) := by
  decide

/-- C15, amended: in the mutex demo the equation
`shared_counter = thread1_iterations + thread2_iterations` holds after the
initialisation of `main`; every critical section of `increment_shared_counter`
preserves it modulo `2^32` for every `thread_id`, and preserves it exactly
when no counter is at `INT_MAX`; `thread_id` 1 advances only
`thread1_iterations` and every other `thread_id` advances only
`thread2_iterations`; after `main` both per-thread counters equal 50000 and
the equation holds. -/
theorem C15_counters_agree (g : Globals) (h fuel : Nat) (thread_id : Int) (m m0 : Machine)
    (hd : g.Distinct) (hfree : m.mem g.spinlock = 0)
    (hs32 : m.mem g.shared_counter < 2 ^ 32) (h132 : m.mem g.thread1_iterations < 2 ^ 32)
    (h232 : m.mem g.thread2_iterations < 2 ^ 32) :
    (countersAgree g (mutexInit g m0) ∧ countersAgreeMod g (mutexInit g m0)) ∧
    (∃ m', critical_section g h (fuel + 1) thread_id m = some m' ∧
      m'.mem g.shared_counter = (m.mem g.shared_counter + 1) % 2 ^ 32 ∧
      (thread_id = 1 →
        m'.mem g.thread1_iterations = (m.mem g.thread1_iterations + 1) % 2 ^ 32 ∧
        m'.mem g.thread2_iterations = m.mem g.thread2_iterations) ∧
      (thread_id ≠ 1 →
        m'.mem g.thread2_iterations = (m.mem g.thread2_iterations + 1) % 2 ^ 32 ∧
        m'.mem g.thread1_iterations = m.mem g.thread1_iterations) ∧
      (countersAgreeMod g m → countersAgreeMod g m') ∧
      (countersAgree g m → toInt32 (m.mem g.shared_counter) < 2 ^ 31 - 1 →
        toInt32 (m.mem g.thread1_iterations) < 2 ^ 31 - 1 →
        toInt32 (m.mem g.thread2_iterations) < 2 ^ 31 - 1 → countersAgree g m')) ∧
    (∃ m', MutexDemo.main g h (fuel + 1) m0 = some m' ∧
      m'.mem g.thread1_iterations = 50000 ∧ m'.mem g.thread2_iterations = 50000 ∧
      m'.mem g.shared_counter = 100000 ∧ countersAgree g m') := by
  have hW : WORD = 2 ^ 32 := rfl
  obtain ⟨_, i1, i2, i3⟩ := main_init_mem g hd m0
  obtain ⟨m', hcs, _, hsh, ht1, ht2⟩ := critical_section_spec g hd h fuel thread_id m hfree
  obtain ⟨mf, hmain, _, hfs, hf1, hf2⟩ := main_spec g hd h fuel m0
  rw [hW] at hsh ht1 ht2
  have hAB : (m'.mem g.thread1_iterations = (m.mem g.thread1_iterations + 1) % 2 ^ 32 ∧
        m'.mem g.thread2_iterations = m.mem g.thread2_iterations) ∨
      (m'.mem g.thread2_iterations = (m.mem g.thread2_iterations + 1) % 2 ^ 32 ∧
        m'.mem g.thread1_iterations = m.mem g.thread1_iterations) := by
    by_cases ht : thread_id = 1
    · left; rw [ht1, ht2]; simp only [ht, if_true, and_self]
    · right; rw [ht1, ht2]; simp only [ht, if_false, and_self]
  refine ⟨⟨?_, ?_⟩, ⟨m', hcs, hsh, fun ht => ?_, fun ht => ?_, fun hinv => ?_,
    fun hinv hS hA hB => ?_⟩, ⟨mf, hmain, hf1, hf2, hfs, ?_⟩⟩
  · simp only [countersAgree, mutexInit, i1, i2, i3]; decide
  · simp only [countersAgreeMod, mutexInit, i1, i2, i3]
  · rw [ht1, ht2]; simp only [ht, if_true, and_self]
  · rw [ht1, ht2]; simp only [ht, if_false, and_self]
  · exact agree_mod_step _ _ _ _ _ _ hsh hAB hinv
  · exact agree_int_step _ _ _ _ _ _ hs32 h132 h232 hsh hAB hinv hS hA hB
  · simp only [countersAgree, hfs, hf1, hf2]; decide

/-- C15 amended, instance: on the layout spinlock 0, shared_counter 1,
thread1_iterations 2, thread2_iterations 3, from the counters 5, 2, 3 a
critical section of thread 7 leaves 6, 2, 4. -/
theorem C15_counters_agree_witness :
    countersAgree ⟨0, 1, 2, 3⟩ (Machine.ofList [0, 5, 2, 3]) ∧
    (∃ m', critical_section ⟨0, 1, 2, 3⟩ 0 1 7 (Machine.ofList [0, 5, 2, 3]) = some m' ∧
      m'.mem 3 = (3 + 1) % 2 ^ 32 ∧ m'.mem 2 = 2 ∧ countersAgree ⟨0, 1, 2, 3⟩ m') := by
  obtain ⟨_, ⟨m', hcs, _, _, hother, _, hexact⟩, _⟩ :=
    C15_counters_agree ⟨0, 1, 2, 3⟩ 0 0 7 (Machine.ofList [0, 5, 2, 3]) Machine.zero
      (by decide) (by decide) (by decide) (by decide) (by decide)
  have hinv : countersAgree ⟨0, 1, 2, 3⟩ (Machine.ofList [0, 5, 2, 3]) := by decide
  exact ⟨hinv, m', hcs, (hother (by decide)).1, (hother (by decide)).2,
    hexact hinv (by decide) (by decide) (by decide)⟩

end RiscvAtomics
